import Mathlib

/-!
Verification of the two algorithmic cores of this repository against their
specification:

* `tictactoe.py` — board model and minimax with alpha-beta pruning
  (namespace `TTT`);
* `degrees.py` — breadth-first shortest-path search over the person–movie
  graph (namespace `Deg`).

Machine floats appear in the source only as `float('inf')` / `float('-inf')`
sentinels compared against utilities in `{-1, 0, 1}`; they are modelled by the
integers `2` and `-2`, which are order-equivalent for every comparison the
code performs.  Python's unbounded loops / recursions are modelled with an
explicit fuel argument; fuel sufficiency is proved, so the out-of-fuel branch
is shown unreachable.
-/

namespace TTT

/-- The two marks, `X = "X"` and `O = "O"` from `tictactoe.py`. -/
inductive Player where
  | X : Player
  | O : Player
deriving DecidableEq

/-- A cell holds a mark or `EMPTY` (= `none`). -/
abbrev Cell := Option Player

/-- A board is a 3×3 grid of cells (`initial_state` shape). -/
abbrev Board := Fin 3 → Fin 3 → Cell

open Player

/-- Number of cells of `b` carrying mark `m` (the generator expressions
`sum(cell == "X" ...)` / `sum(cell == "O" ...)` in `player`). -/
def countMark (b : Board) (m : Player) : ℕ :=
  (Finset.univ.filter (fun p : Fin 3 × Fin 3 => b p.1 p.2 = some m)).card

/-- `player(board)`: `O` if strictly more `X`s than `O`s, else `X`. -/
def player (b : Board) : Player :=
  if countMark b O < countMark b X then O else X

/-- Reading `board[i][j]` for Python integer indices; all guarded accesses in
the source are in range, where this agrees with the grid. -/
def cellAt (b : Board) (i j : ℤ) : Cell :=
  if h : 0 ≤ i ∧ i < 3 ∧ 0 ≤ j ∧ j < 3 then
    b ⟨i.toNat, by omega⟩ ⟨j.toNat, by omega⟩
  else none

/-- `actions(board)`: the set `{(i, j) | i, j ∈ range(3), board[i][j] == EMPTY}`. -/
def actionsB (b : Board) : Finset (ℤ × ℤ) :=
  (Finset.Icc (0 : ℤ) 2 ×ˢ Finset.Icc (0 : ℤ) 2).filter
    (fun a => cellAt b a.1 a.2 = none)

/-- A concrete enumeration of `actions(board)` in row-major order; Python
iterates the set in an unspecified but fixed order, which theorems quantify
over through an order oracle. -/
def legalList (b : Board) : List (ℤ × ℤ) :=
  (((List.range 3).map (fun i => (i : ℤ))).flatMap
    (fun i => ((List.range 3).map (fun j => (j : ℤ))).map (fun j => (i, j)))).filter
    (fun a => decide (cellAt b a.1 a.2 = none))

/-- The functional update `new_board[i][j] = mark` (on a fresh copy). -/
def updateB (b : Board) (i j : ℤ) (m : Cell) : Board :=
  fun i' j' => if ((i' : ℕ) : ℤ) = i ∧ ((j' : ℕ) : ℤ) = j then m else b i' j'

/-- `result(board, action)`: raises `ValueError("Invalid action")` when the
coordinate is out of the 3×3 range or the cell is occupied, else returns the
copied board with the active player's mark placed. -/
def resultT (b : Board) (a : ℤ × ℤ) : Except String Board :=
  if a.1 < 0 ∨ 3 ≤ a.1 ∨ a.2 < 0 ∨ 3 ≤ a.2 ∨ cellAt b a.1 a.2 ≠ none then
    .error "Invalid action"
  else
    .ok (updateB b a.1 a.2 (some (player b)))

/-- The successful outcome of `result`. -/
def applyA (b : Board) (a : ℤ × ℤ) : Board :=
  updateB b a.1 a.2 (some (player b))

/-- `winner(board)`: rows, then columns, then the two diagonals, in source
order; returns the repeated non-empty cell value, else `None`. -/
def winner (b : Board) : Cell :=
  if b 0 0 = b 0 1 ∧ b 0 1 = b 0 2 ∧ b 0 0 ≠ none then b 0 0
  else if b 1 0 = b 1 1 ∧ b 1 1 = b 1 2 ∧ b 1 0 ≠ none then b 1 0
  else if b 2 0 = b 2 1 ∧ b 2 1 = b 2 2 ∧ b 2 0 ≠ none then b 2 0
  else if b 0 0 = b 1 0 ∧ b 1 0 = b 2 0 ∧ b 0 0 ≠ none then b 0 0
  else if b 0 1 = b 1 1 ∧ b 1 1 = b 2 1 ∧ b 0 1 ≠ none then b 0 1
  else if b 0 2 = b 1 2 ∧ b 1 2 = b 2 2 ∧ b 0 2 ≠ none then b 0 2
  else if b 0 0 = b 1 1 ∧ b 1 1 = b 2 2 ∧ b 0 0 ≠ none then b 0 0
  else if b 0 2 = b 1 1 ∧ b 1 1 = b 2 0 ∧ b 0 2 ≠ none then b 0 2
  else none

/-- `terminal(board)`: someone won or the board is full. -/
def terminalB (b : Board) : Prop :=
  winner b ≠ none ∨ ∀ i j, b i j ≠ none

instance (b : Board) : Decidable (terminalB b) := by
  unfold terminalB; infer_instance

/-- `utility(board)`: `1` if `X` won, `-1` if `O` won, `0` otherwise. -/
def utility (b : Board) : ℤ :=
  if winner b = some X then 1 else if winner b = some O then -1 else 0

/-- Number of empty cells; the recursion measure of the game-tree search. -/
def emptiesCount (b : Board) : ℕ :=
  (Finset.univ.filter (fun p : Fin 3 × Fin 3 => b p.1 p.2 = none)).card

end TTT

namespace TTT

/-- Claim C7 helper: validity of an action on a board. -/
def validAct (b : Board) (a : ℤ × ℤ) : Prop :=
  0 ≤ a.1 ∧ a.1 < 3 ∧ 0 ≤ a.2 ∧ a.2 < 3 ∧ cellAt b a.1 a.2 = none

instance (b : Board) (a : ℤ × ℤ) : Decidable (validAct b a) := by
  unfold validAct; infer_instance

theorem resultT_error (b : Board) (a : ℤ × ℤ) (h : ¬ validAct b a) :
    resultT b a = .error "Invalid action" := by
  unfold resultT
  rw [if_pos]
  unfold validAct at h
  by_cases h1 : cellAt b a.1 a.2 = none
  · simp [h1] at h ⊢; omega
  · tauto

theorem resultT_ok (b : Board) (a : ℤ × ℤ) (h : validAct b a) :
    resultT b a = .ok (applyA b a) := by
  obtain ⟨h1, h2, h3, h4, h5⟩ := h
  unfold resultT
  rw [if_neg]
  · rfl
  · push_neg
    exact ⟨by omega, by omega, by omega, by omega, h5⟩

theorem mem_actionsB (b : Board) (a : ℤ × ℤ) :
    a ∈ actionsB b ↔ validAct b a := by
  unfold actionsB validAct
  rw [Finset.mem_filter, Finset.mem_product, Finset.mem_Icc, Finset.mem_Icc]
  constructor
  · rintro ⟨⟨⟨h1, h2⟩, h3, h4⟩, h5⟩
    exact ⟨h1, by omega, h3, by omega, h5⟩
  · rintro ⟨h1, h2, h3, h4, h5⟩
    exact ⟨⟨⟨h1, by omega⟩, h3, by omega⟩, h5⟩

/-- The all-empty starting board, `initial_state()`. -/
def emptyB : Board := fun _ _ => none

end TTT

open TTT

/-- Claim C7: `result(board, action)` raises the invalid-move error iff the
coordinate `(i, j)` is outside the 3×3 range or the target cell is occupied;
on success the returned board differs from the input only at `(i, j)`, which
holds the active player's mark.  (The embedding is purely functional, so the
input board is left unchanged by construction.) -/
theorem claim_C7 (b : Board) (i j : ℤ) :
    (resultT b (i, j) = .error "Invalid action" ↔
      (i < 0 ∨ 3 ≤ i ∨ j < 0 ∨ 3 ≤ j ∨ cellAt b i j ≠ none)) ∧
    (∀ b', resultT b (i, j) = .ok b' →
      (∀ i' j' : Fin 3, ((i'.val : ℤ) = i ∧ (j'.val : ℤ) = j) →
          b' i' j' = some (player b)) ∧
      (∀ i' j' : Fin 3, ¬((i'.val : ℤ) = i ∧ (j'.val : ℤ) = j) →
          b' i' j' = b i' j')) := by
  by_cases hc : (i < 0 ∨ 3 ≤ i ∨ j < 0 ∨ 3 ≤ j ∨ cellAt b i j ≠ none)
  · constructor
    · simp only [resultT, if_pos hc]
      exact iff_of_true trivial hc
    · intro b' hb'
      simp only [resultT, if_pos hc] at hb'
      exact absurd hb' (by simp)
  · constructor
    · simp only [resultT, if_neg hc]
      exact iff_of_false (by simp) hc
    · intro b' hb'
      simp only [resultT, if_neg hc, Except.ok.injEq] at hb'
      subst hb'
      refine ⟨fun i' j' h => ?_, fun i' j' h => ?_⟩
      · simp only [updateB, if_pos h]
      · simp only [updateB, if_neg h]

/-- Witness for C7 at concrete inputs: an out-of-range move on the empty board
errors, and a successful move leaves every other cell unchanged. -/
theorem claim_C7_witness :
    resultT emptyB (3, 0) = .error "Invalid action" ∧
    ∀ i' j' : Fin 3, ¬((i'.val : ℤ) = 0 ∧ (j'.val : ℤ) = 1) →
      applyA emptyB (0, 1) i' j' = emptyB i' j' := by
  constructor
  · exact (claim_C7 emptyB 3 0).1.mpr (by decide)
  · intro i' j' h
    exact ((claim_C7 emptyB 0 1).2 (applyA emptyB (0, 1))
      (resultT_ok emptyB (0, 1) (by decide))).2 i' j' h

namespace TTT

open Player

/-- Mark counts of a position reachable in legal alternating play
(`X` moves first). -/
def Balanced (b : Board) : Prop :=
  countMark b O ≤ countMark b X ∧ countMark b X ≤ countMark b O + 1

instance (b : Board) : Decidable (Balanced b) := by
  unfold Balanced; infer_instance

/-- An order oracle fixes, for each board, the order in which Python happens
to iterate the set `actions(board)`: an enumeration without repetition. -/
def OrdSpec (ord : Board → List (ℤ × ℤ)) : Prop :=
  ∀ b, (ord b).Nodup ∧ ∀ a, a ∈ ord b ↔ a ∈ actionsB b

/-- Unpruned full-depth minimax value (the specification-side oracle for the
pruned search).  `fuel` strictly dominates the number of empty cells; the
`fuel = 0` branch is unreachable and fuel-irrelevance is proved below. -/
def mval : ℕ → Board → ℤ
  | 0, _ => 0
  | fuel + 1, b =>
    if terminalB b then utility b
    else if player b = X then
      ((legalList b).map (fun a => mval fuel (applyA b a))).foldl max (-2)
    else
      ((legalList b).map (fun a => mval fuel (applyA b a))).foldl min 2

/-- The unpruned minimax value of a board (enough fuel for any 3×3 board). -/
def Mval (b : Board) : ℤ := mval 10 b

/-- The loop of `max_value`: running best `v` starts at −∞ (sentinel `-2`),
`f` is the next-level value function; updates the lower bound and breaks as
soon as `v ≥ upper` (the `no_more_than` prune). -/
def goMaxF (f : Board → ℤ → ℤ → Except String ℤ) (b : Board) :
    List (ℤ × ℤ) → ℤ → ℤ → ℤ → Except String ℤ
  | [], v, _, _ => .ok v
  | a :: rest, v, lower, upper =>
    match resultT b a with
    | .error e => .error e
    | .ok b' =>
      match f b' lower upper with
      | .error e => .error e
      | .ok w =>
        if upper ≤ max v w then .ok (max v w)
        else goMaxF f b rest (max v w) (max lower (max v w)) upper

/-- The loop of `min_value`: mirror image of `goMaxF`. -/
def goMinF (f : Board → ℤ → ℤ → Except String ℤ) (b : Board) :
    List (ℤ × ℤ) → ℤ → ℤ → ℤ → Except String ℤ
  | [], v, _, _ => .ok v
  | a :: rest, v, lower, upper =>
    match resultT b a with
    | .error e => .error e
    | .ok b' =>
      match f b' lower upper with
      | .error e => .error e
      | .ok w =>
        if min v w ≤ lower then .ok (min v w)
        else goMinF f b rest (min v w) lower (min upper (min v w))

mutual

/-- `max_value(board, no_less_than, no_more_than)` from `tictactoe.py`. -/
def maxValue (ord : Board → List (ℤ × ℤ)) : ℕ → Board → ℤ → ℤ → Except String ℤ
  | 0, _, _, _ => .error "out of fuel"
  | fuel + 1, b, lower, upper =>
    if terminalB b then .ok (utility b)
    else goMaxF (minValue ord fuel) b (ord b) (-2) lower upper

/-- `min_value(board, no_less_than, no_more_than)` from `tictactoe.py`. -/
def minValue (ord : Board → List (ℤ × ℤ)) : ℕ → Board → ℤ → ℤ → Except String ℤ
  | 0, _, _, _ => .error "out of fuel"
  | fuel + 1, b, lower, upper =>
    if terminalB b then .ok (utility b)
    else goMinF (maxValue ord fuel) b (ord b) 2 lower upper

end

/-- Root loop of `minimax` when it is `X`'s turn: tracks the best score, the
best move (first strict improvement wins ties) and raises `no_less_than`. -/
def goRootX (ord : Board → List (ℤ × ℤ)) (b : Board) :
    List (ℤ × ℤ) → ℤ → Option (ℤ × ℤ) → ℤ → Except String (Option (ℤ × ℤ))
  | [], _, bm, _ => .ok bm
  | a :: rest, best, bm, lower =>
    match resultT b a with
    | .error e => .error e
    | .ok b' =>
      match minValue ord 9 b' lower 2 with
      | .error e => .error e
      | .ok score =>
        if best < score then goRootX ord b rest score (some a) (max lower score)
        else goRootX ord b rest best bm lower

/-- Root loop of `minimax` when it is `O`'s turn. -/
def goRootO (ord : Board → List (ℤ × ℤ)) (b : Board) :
    List (ℤ × ℤ) → ℤ → Option (ℤ × ℤ) → ℤ → Except String (Option (ℤ × ℤ))
  | [], _, bm, _ => .ok bm
  | a :: rest, best, bm, upper =>
    match resultT b a with
    | .error e => .error e
    | .ok b' =>
      match maxValue ord 9 b' (-2) upper with
      | .error e => .error e
      | .ok score =>
        if score < best then goRootO ord b rest score (some a) (min upper score)
        else goRootO ord b rest best bm upper

/-- `minimax(board)`: `None` on a terminal board, else the best move for the
player to move, searching children through `min_value` / `max_value`. -/
def minimaxT (ord : Board → List (ℤ × ℤ)) (b : Board) :
    Except String (Option (ℤ × ℤ)) :=
  if terminalB b then .ok none
  else if player b = X then goRootX ord b (ord b) (-2) none (-2)
  else goRootO ord b (ord b) 2 none 2

theorem foldl_max_exch (l : List ℤ) :
    ∀ i a : ℤ, l.foldl max (max i a) = max a (l.foldl max i) := by
  induction l with
  | nil => intro i a; simp [max_comm]
  | cons x l ih =>
    intro i a
    show l.foldl max (max (max i a) x) = max a (l.foldl max (max i x))
    rw [sup_right_comm i a x, ih (max i x) a]

theorem foldl_min_exch (l : List ℤ) :
    ∀ i a : ℤ, l.foldl min (min i a) = min a (l.foldl min i) := by
  induction l with
  | nil => intro i a; simp [min_comm]
  | cons x l ih =>
    intro i a
    show l.foldl min (min (min i a) x) = min a (l.foldl min (min i x))
    rw [inf_right_comm i a x, ih (min i x) a]

theorem foldl_max_perm {l₁ l₂ : List ℤ} (h : l₁.Perm l₂) :
    ∀ i : ℤ, l₁.foldl max i = l₂.foldl max i := by
  induction h with
  | nil => intro i; rfl
  | cons x _ ih => intro i; exact ih (max i x)
  | swap x y l => intro i; show l.foldl max (max (max i y) x) = _
                  rw [sup_right_comm]; rfl
  | trans _ _ ih₁ ih₂ => intro i; rw [ih₁ i, ih₂ i]

theorem foldl_min_perm {l₁ l₂ : List ℤ} (h : l₁.Perm l₂) :
    ∀ i : ℤ, l₁.foldl min i = l₂.foldl min i := by
  induction h with
  | nil => intro i; rfl
  | cons x _ ih => intro i; exact ih (min i x)
  | swap x y l => intro i; show l.foldl min (min (min i y) x) = _
                  rw [inf_right_comm]; rfl
  | trans _ _ ih₁ ih₂ => intro i; rw [ih₁ i, ih₂ i]

theorem init_le_foldl_max (l : List ℤ) : ∀ i : ℤ, i ≤ l.foldl max i := by
  induction l with
  | nil => intro i; exact le_refl i
  | cons x l ih => intro i; exact le_trans (le_max_left i x) (ih (max i x))

theorem foldl_min_le_init (l : List ℤ) : ∀ i : ℤ, l.foldl min i ≤ i := by
  induction l with
  | nil => intro i; exact le_refl i
  | cons x l ih => intro i; exact le_trans (ih (min i x)) (min_le_left i x)

theorem foldl_max_le (l : List ℤ) :
    ∀ i c : ℤ, i ≤ c → (∀ x ∈ l, x ≤ c) → l.foldl max i ≤ c := by
  induction l with
  | nil => intro i c hi _; exact hi
  | cons x l ih =>
    intro i c hi hm
    exact ih (max i x) c (max_le hi (hm x (List.mem_cons_self _ _))) fun y hy =>
      hm y (List.mem_cons_of_mem x hy)

theorem le_foldl_min (l : List ℤ) :
    ∀ i c : ℤ, c ≤ i → (∀ x ∈ l, c ≤ x) → c ≤ l.foldl min i := by
  induction l with
  | nil => intro i c hi _; exact hi
  | cons x l ih =>
    intro i c hi hm
    exact ih (min i x) c (le_min hi (hm x (List.mem_cons_self _ _))) fun y hy =>
      hm y (List.mem_cons_of_mem x hy)

theorem le_foldl_max_of_mem (l : List ℤ) :
    ∀ i x : ℤ, x ∈ l → x ≤ l.foldl max i := by
  induction l with
  | nil => intro i x hx; cases hx
  | cons y l ih =>
    intro i x hx
    rcases List.mem_cons.mp hx with h | h
    · subst h; exact le_trans (le_max_right i x) (init_le_foldl_max l (max i x))
    · exact ih (max i y) x h

theorem foldl_min_le_of_mem (l : List ℤ) :
    ∀ i x : ℤ, x ∈ l → l.foldl min i ≤ x := by
  induction l with
  | nil => intro i x hx; cases hx
  | cons y l ih =>
    intro i x hx
    rcases List.mem_cons.mp hx with h | h
    · subst h; exact le_trans (foldl_min_le_init l (min i x)) (min_le_right i x)
    · exact ih (min i y) x h

theorem mem_legalList (b : Board) (a : ℤ × ℤ) :
    a ∈ legalList b ↔ validAct b a := by
  have hbase : (((List.range 3).map (fun i => (i : ℤ))).flatMap
      (fun i => ((List.range 3).map (fun j => (j : ℤ))).map (fun j => (i, j))))
      = [((0 : ℤ), (0 : ℤ)), (0, 1), (0, 2), (1, 0), (1, 1), (1, 2),
          (2, 0), (2, 1), (2, 2)] := by rfl
  unfold legalList validAct
  rw [hbase, List.mem_filter]
  simp only [List.mem_cons, List.not_mem_nil, or_false, decide_eq_true_eq]
  constructor
  · rintro ⟨hsq, h5⟩
    rcases hsq with rfl | rfl | rfl | rfl | rfl | rfl | rfl | rfl | rfl <;>
      exact ⟨by decide, by decide, by decide, by decide, h5⟩
  · rintro ⟨h1, h2, h3, h4, h5⟩
    refine ⟨?_, h5⟩
    obtain ⟨a1, a2⟩ := a
    simp only [Prod.mk.injEq]
    simp only at h1 h2 h3 h4
    omega

theorem legalList_nodup (b : Board) : (legalList b).Nodup :=
  List.Nodup.filter _ (by decide)

theorem legalList_ne_nil (b : Board) (h : ¬ terminalB b) : legalList b ≠ [] := by
  unfold terminalB at h
  push_neg at h
  obtain ⟨-, hx⟩ := h
  obtain ⟨i, j, hij⟩ := hx
  apply List.ne_nil_of_mem (a := ((i.val : ℤ), (j.val : ℤ)))
  rw [mem_legalList]
  have hi := i.isLt
  have hj := j.isLt
  refine ⟨by omega, by omega, by omega, by omega, ?_⟩
  unfold cellAt
  rw [dif_pos ⟨by omega, by omega, by omega, by omega⟩]
  have e1 : (⟨((i.val : ℤ)).toNat, by omega⟩ : Fin 3) = i :=
    Fin.ext (show ((i.val : ℤ)).toNat = i.val by omega)
  have e2 : (⟨((j.val : ℤ)).toNat, by omega⟩ : Fin 3) = j :=
    Fin.ext (show ((j.val : ℤ)).toNat = j.val by omega)
  rw [e1, e2]
  exact hij

/-- The grid coordinate addressed by a valid action. -/
def actPos (a : ℤ × ℤ) : Fin 3 × Fin 3 :=
  (⟨a.1.toNat % 3, Nat.mod_lt _ (by omega)⟩, ⟨a.2.toNat % 3, Nat.mod_lt _ (by omega)⟩)

theorem applyA_apply (b : Board) (a : ℤ × ℤ) (h : validAct b a)
    (p : Fin 3 × Fin 3) :
    applyA b a p.1 p.2 =
      if p = actPos a then some (player b) else b p.1 p.2 := by
  obtain ⟨h1, h2, h3, h4, h5⟩ := h
  show (if ((p.1.val : ℤ) = a.1 ∧ (p.2.val : ℤ) = a.2) then some (player b)
      else b p.1 p.2) = _
  have hiff : ((p.1.val : ℤ) = a.1 ∧ (p.2.val : ℤ) = a.2) ↔ p = actPos a := by
    unfold actPos
    rw [Prod.ext_iff]
    constructor
    · rintro ⟨x, y⟩
      exact ⟨Fin.ext (show p.1.val = a.1.toNat % 3 by omega),
        Fin.ext (show p.2.val = a.2.toNat % 3 by omega)⟩
    · rintro ⟨x, y⟩
      have hx : p.1.val = a.1.toNat % 3 := congrArg Fin.val x
      have hy : p.2.val = a.2.toNat % 3 := congrArg Fin.val y
      omega
  rw [if_congr hiff rfl rfl]

theorem b_actPos_none (b : Board) (a : ℤ × ℤ) (h : validAct b a) :
    b (actPos a).1 (actPos a).2 = none := by
  obtain ⟨h1, h2, h3, h4, h5⟩ := h
  unfold cellAt at h5
  rw [dif_pos ⟨h1, h2, h3, h4⟩] at h5
  have e1 : (actPos a).1 = (⟨a.1.toNat, by omega⟩ : Fin 3) := by
    apply Fin.ext
    show a.1.toNat % 3 = a.1.toNat
    omega
  have e2 : (actPos a).2 = (⟨a.2.toNat, by omega⟩ : Fin 3) := by
    apply Fin.ext
    show a.2.toNat % 3 = a.2.toNat
    omega
  rw [e1, e2]
  exact h5

theorem countMark_applyA (b : Board) (a : ℤ × ℤ) (h : validAct b a) (m : Player) :
    countMark (applyA b a) m = countMark b m + (if player b = m then 1 else 0) := by
  have hb0 := b_actPos_none b a h
  unfold countMark
  by_cases hm : player b = m
  · rw [if_pos hm]
    have hset : Finset.univ.filter
          (fun p : Fin 3 × Fin 3 => applyA b a p.1 p.2 = some m)
        = insert (actPos a)
            (Finset.univ.filter (fun p : Fin 3 × Fin 3 => b p.1 p.2 = some m)) := by
      ext p
      simp only [Finset.mem_filter, Finset.mem_insert, Finset.mem_univ, true_and]
      rw [applyA_apply b a h p]
      by_cases hc : p = actPos a
      · simp [hc, hm]
      · simp [hc]
    rw [hset, Finset.card_insert_of_not_mem (by
      simp only [Finset.mem_filter, Finset.mem_univ, true_and, hb0]
      simp)]
  · rw [if_neg hm, add_zero]
    congr 1
    ext p
    simp only [Finset.mem_filter, Finset.mem_univ, true_and]
    rw [applyA_apply b a h p]
    by_cases hc : p = actPos a
    · subst hc
      rw [if_pos rfl, hb0]
      constructor
      · intro hx; exact absurd (Option.some.inj hx) hm
      · intro hx; cases hx
    · rw [if_neg hc]

theorem emptiesCount_applyA (b : Board) (a : ℤ × ℤ) (h : validAct b a) :
    emptiesCount (applyA b a) + 1 = emptiesCount b := by
  have hb0 := b_actPos_none b a h
  unfold emptiesCount
  have hset : Finset.univ.filter (fun p : Fin 3 × Fin 3 => b p.1 p.2 = none)
      = insert (actPos a)
          (Finset.univ.filter (fun p : Fin 3 × Fin 3 => applyA b a p.1 p.2 = none)) := by
    ext p
    simp only [Finset.mem_filter, Finset.mem_insert, Finset.mem_univ, true_and]
    rw [applyA_apply b a h p]
    by_cases hc : p = actPos a
    · subst hc; simp [hb0]
    · simp [hc]
  rw [hset, Finset.card_insert_of_not_mem (by
    simp only [Finset.mem_filter, Finset.mem_univ, true_and]
    rw [applyA_apply b a h (actPos a), if_pos rfl]
    simp)]

theorem player_eq_X_iff (b : Board) (hb : Balanced b) :
    player b = X ↔ countMark b X = countMark b O := by
  obtain ⟨hb1, hb2⟩ := hb
  unfold player
  by_cases hc : countMark b O < countMark b X
  · rw [if_pos hc]
    exact iff_of_false (by decide) (by omega)
  · rw [if_neg hc]
    exact iff_of_true rfl (by omega)

theorem player_eq_O_iff (b : Board) (hb : Balanced b) :
    player b = O ↔ countMark b X = countMark b O + 1 := by
  obtain ⟨hb1, hb2⟩ := hb
  unfold player
  by_cases hc : countMark b O < countMark b X
  · rw [if_pos hc]
    exact iff_of_true rfl (by omega)
  · rw [if_neg hc]
    exact iff_of_false (by decide) (by omega)

theorem balanced_applyA (b : Board) (a : ℤ × ℤ) (hb : Balanced b)
    (h : validAct b a) : Balanced (applyA b a) := by
  have hX := countMark_applyA b a h X
  have hO := countMark_applyA b a h O
  unfold Balanced
  cases hp : player b
  · rw [hp] at hX hO
    have := (player_eq_X_iff b hb).mp hp
    simp only [reduceCtorEq, if_true, if_false, reduceIte] at hX hO
    omega
  · rw [hp] at hX hO
    have := (player_eq_O_iff b hb).mp hp
    simp only [reduceCtorEq, if_true, if_false, reduceIte] at hX hO
    omega

theorem player_applyA_X (b : Board) (a : ℤ × ℤ) (hb : Balanced b)
    (h : validAct b a) (hX : player b = X) : player (applyA b a) = O := by
  have hc := (player_eq_X_iff b hb).mp hX
  have h1 := countMark_applyA b a h X
  have h2 := countMark_applyA b a h O
  rw [hX] at h1 h2
  simp only [reduceCtorEq, if_true, if_false, reduceIte] at h1 h2
  unfold player
  rw [if_pos (by omega)]

theorem player_applyA_O (b : Board) (a : ℤ × ℤ) (hb : Balanced b)
    (h : validAct b a) (hO : player b = O) : player (applyA b a) = X := by
  have hc := (player_eq_O_iff b hb).mp hO
  have h1 := countMark_applyA b a h X
  have h2 := countMark_applyA b a h O
  rw [hO] at h1 h2
  simp only [reduceCtorEq, if_true, if_false, reduceIte] at h1 h2
  unfold player
  rw [if_neg (by omega)]

theorem utility_range (b : Board) : -1 ≤ utility b ∧ utility b ≤ 1 := by
  unfold utility
  split_ifs <;> omega

theorem mval_range : ∀ (fuel : ℕ) (b : Board), emptiesCount b < fuel →
    -1 ≤ mval fuel b ∧ mval fuel b ≤ 1 := by
  intro fuel
  induction fuel with
  | zero => intro b hb; omega
  | succ fuel ih =>
    intro b hb
    show -1 ≤ mval (fuel + 1) b ∧ mval (fuel + 1) b ≤ 1
    rw [mval]
    by_cases ht : terminalB b
    · rw [if_pos ht]; exact utility_range b
    · rw [if_neg ht]
      have hmem : ∀ x ∈ (legalList b).map (fun a => mval fuel (applyA b a)),
          -1 ≤ x ∧ x ≤ 1 := by
        intro x hx
        obtain ⟨a, ha, rfl⟩ := List.mem_map.mp hx
        have hv := (mem_legalList b a).mp ha
        have hce := emptiesCount_applyA b a hv
        exact ih (applyA b a) (by omega)
      obtain ⟨a0, ha0⟩ := List.exists_mem_of_ne_nil _ (legalList_ne_nil b ht)
      have ha0m : mval fuel (applyA b a0) ∈
          (legalList b).map (fun a => mval fuel (applyA b a)) :=
        List.mem_map_of_mem _ ha0
      by_cases hpl : player b = X
      · rw [if_pos hpl]
        constructor
        · exact le_trans (hmem _ ha0m).1 (le_foldl_max_of_mem _ _ _ ha0m)
        · exact foldl_max_le _ _ _ (by omega) (fun x hx => (hmem x hx).2)
      · rw [if_neg hpl]
        constructor
        · exact le_foldl_min _ _ _ (by omega) (fun x hx => (hmem x hx).1)
        · exact le_trans (foldl_min_le_of_mem _ _ _ ha0m) (hmem _ ha0m).2

/-- Fail-soft alpha-beta contract: the returned value `r` of a search window
`(lower, upper)` bounds the true value `t` from the correct side, and equals
it when it lies strictly inside the window. -/
def failSoft (lower upper r t : ℤ) : Prop :=
  (r ≤ lower → t ≤ r) ∧ (upper ≤ r → r ≤ t) ∧ (lower < r → r < upper → r = t)

theorem failSoft_refl (lower upper t : ℤ) : failSoft lower upper t t :=
  ⟨fun _ => le_refl t, fun _ => le_refl t, fun _ _ => rfl⟩

theorem failSoft_range (lower upper r t : ℤ) (h : failSoft lower upper r t)
    (hl : -2 ≤ lower) (hlu : lower < upper) (hu : upper ≤ 2)
    (ht1 : -1 ≤ t) (ht2 : t ≤ 1) :
    -1 ≤ r ∧ r ≤ 1 := by
  obtain ⟨f1, f2, f3⟩ := h
  by_cases c1 : r ≤ lower
  · have := f1 c1; omega
  · by_cases c2 : upper ≤ r
    · have := f2 c2; omega
    · have := f3 (by omega) (by omega); omega

theorem mval_irrel : ∀ (f1 f2 : ℕ) (b : Board), emptiesCount b < f1 →
    emptiesCount b < f2 → mval f1 b = mval f2 b := by
  intro f1
  induction f1 with
  | zero => intro f2 b h1 _; omega
  | succ f1 ih =>
    intro f2 b h1 h2
    match f2 with
    | 0 => omega
    | f2 + 1 =>
      rw [mval, mval]
      by_cases ht : terminalB b
      · rw [if_pos ht, if_pos ht]
      · rw [if_neg ht, if_neg ht]
        have hmap : (legalList b).map (fun a => mval f1 (applyA b a))
            = (legalList b).map (fun a => mval f2 (applyA b a)) := by
          apply List.map_congr_left
          intro a ha
          have hv := (mem_legalList b a).mp ha
          have hce := emptiesCount_applyA b a hv
          exact ih f2 (applyA b a) (by omega) (by omega)
        rw [hmap]

theorem goMaxF_spec (ord : Board → List (ℤ × ℤ)) (fuel : ℕ) (b : Board)
    (hb : Balanced b) (hpl : player b = X) (hf : emptiesCount b < fuel + 1)
    (IH : ∀ b' lower upper, Balanced b' → player b' = O → emptiesCount b' < fuel →
      -2 ≤ lower → lower < upper → upper ≤ 2 →
      ∃ r, minValue ord fuel b' lower upper = .ok r ∧
        failSoft lower upper r (mval fuel b')) :
    ∀ (rest : List (ℤ × ℤ)) (v lower0 upper : ℤ), (∀ a ∈ rest, validAct b a) →
      -2 ≤ lower0 → lower0 < upper → upper ≤ 2 → -2 ≤ v → v < upper → v ≤ 1 →
      ∃ r, goMaxF (minValue ord fuel) b rest v (max lower0 v) upper = .ok r ∧
        v ≤ r ∧ failSoft lower0 upper r
          ((rest.map (fun a => mval fuel (applyA b a))).foldl max v) := by
  intro rest
  induction rest with
  | nil =>
    intro v lower0 upper _ _ _ _ _ _ _
    exact ⟨v, rfl, le_refl v, failSoft_refl lower0 upper v⟩
  | cons a rest ih =>
    intro v lower0 upper hvalid hl0 hlu hu2 hv2 hvu hv1
    have hva : validAct b a := hvalid a (List.mem_cons_self _ _)
    have hres : resultT b a = .ok (applyA b a) := resultT_ok b a hva
    have hb' : Balanced (applyA b a) := balanced_applyA b a hb hva
    have hpl' : player (applyA b a) = O := player_applyA_X b a hb hva hpl
    have hce : emptiesCount (applyA b a) + 1 = emptiesCount b :=
      emptiesCount_applyA b a hva
    have hαu : max lower0 v < upper := max_lt hlu hvu
    obtain ⟨w, hwok, hwFS⟩ := IH (applyA b a) (max lower0 v) upper hb' hpl'
      (by omega) (le_trans hl0 (le_max_left _ _)) hαu hu2
    have htr := mval_range fuel (applyA b a) (by omega)
    have hwr := failSoft_range _ _ _ _ hwFS (le_trans hl0 (le_max_left _ _))
      hαu hu2 htr.1 htr.2
    set t := mval fuel (applyA b a) with hteq
    set K0 := ((rest.map (fun a => mval fuel (applyA b a))).foldl max v) with hK0eq
    have hK0v : v ≤ K0 := init_le_foldl_max _ v
    have hfold : (((a :: rest).map (fun a => mval fuel (applyA b a))).foldl max v)
        = max t K0 := by
      rw [List.map_cons, List.foldl_cons, foldl_max_exch]
    have hstep : goMaxF (minValue ord fuel) b (a :: rest) v (max lower0 v) upper
        = if upper ≤ max v w then .ok (max v w)
          else goMaxF (minValue ord fuel) b rest (max v w)
            (max (max lower0 v) (max v w)) upper := by
      show (match resultT b a with
        | Except.error e => (Except.error e : Except String ℤ)
        | Except.ok b' =>
          match minValue ord fuel b' (max lower0 v) upper with
          | Except.error e => Except.error e
          | Except.ok w =>
            if upper ≤ max v w then Except.ok (max v w)
            else goMaxF (minValue ord fuel) b rest (max v w)
              (max (max lower0 v) (max v w)) upper) = _
      rw [hres]
      show (match minValue ord fuel (applyA b a) (max lower0 v) upper with
        | Except.error e => (Except.error e : Except String ℤ)
        | Except.ok w =>
          if upper ≤ max v w then Except.ok (max v w)
          else goMaxF (minValue ord fuel) b rest (max v w)
            (max (max lower0 v) (max v w)) upper) = _
      rw [hwok]
    rw [hfold, hstep]
    by_cases hbr : upper ≤ max v w
    · rw [if_pos hbr]
      refine ⟨max v w, rfl, le_max_left v w, ?_, ?_, ?_⟩
      · intro h; exact absurd (lt_of_lt_of_le hlu (le_trans hbr h)) (lt_irrefl _)
      · intro _
        have hvw : max v w = w := max_eq_right (by omega)
        have hwt : w ≤ t := hwFS.2.1 (by omega)
        calc max v w = w := hvw
          _ ≤ t := hwt
          _ ≤ max t K0 := le_max_left t K0
      · intro _ h2; exact absurd (lt_of_le_of_lt hbr h2) (lt_irrefl _)
    · rw [if_neg hbr]
      have hvwu : max v w < upper := lt_of_not_le hbr
      have harg : max (max lower0 v) (max v w) = max lower0 (max v w) := by
        rw [sup_assoc, ← sup_assoc v v w, sup_idem]
      rw [harg]
      obtain ⟨r, hrok, hvr, hrFS⟩ := ih (max v w) lower0 upper
        (fun x hx => hvalid x (List.mem_cons_of_mem a hx))
        hl0 hlu hu2 (le_trans hv2 (le_max_left v w)) hvwu
        (max_le hv1 hwr.2)
      have hKrest : ((rest.map (fun a => mval fuel (applyA b a))).foldl max (max v w))
          = max w K0 := by rw [foldl_max_exch]
      rw [hKrest] at hrFS
      refine ⟨r, hrok, le_trans (le_max_left v w) hvr, ?_, ?_, ?_⟩
      · intro h
        have h1 : max w K0 ≤ r := hrFS.1 h
        have hwα : w ≤ max lower0 v :=
          le_trans (le_trans (le_max_left w K0) h1)
            (le_trans h (le_max_left lower0 v))
        have htw : t ≤ w := hwFS.1 hwα
        exact max_le (le_trans htw (le_trans (le_max_left w K0) h1))
          (le_trans (le_max_right w K0) h1)
      · intro h
        have h2 : r ≤ max w K0 := hrFS.2.1 h
        rcases le_total w K0 with hc | hc
        · rw [max_eq_right hc] at h2
          exact le_trans h2 (le_max_right t K0)
        · rw [max_eq_left hc] at h2
          have hwt : w ≤ t := hwFS.2.1 (le_trans h h2)
          exact le_trans (le_trans h2 hwt) (le_max_left t K0)
      · intro hl hr'
        have h3 : r = max w K0 := hrFS.2.2 hl hr'
        by_cases hw : max lower0 v < w
        · have hwu : w < upper := lt_of_le_of_lt (le_max_right v w) hvwu
          have hwt : w = t := hwFS.2.2 hw hwu
          rw [h3, hwt]
        · have htw : t ≤ w := hwFS.1 (le_of_not_lt hw)
          rcases le_total w K0 with hc | hc
          · rw [h3, max_eq_right hc, max_eq_right (le_trans htw hc)]
          · have hwα : w ≤ max lower0 v := le_of_not_lt hw
            rcases le_total lower0 v with hd | hd
            · have hwv : w ≤ v := le_trans hwα (le_of_eq (max_eq_right hd))
              have hwK : w ≤ K0 := le_trans hwv hK0v
              have heq : w = K0 := le_antisymm hwK hc
              rw [h3, max_eq_right hwK, max_eq_right (le_trans htw hwK)]
            · have hwl : w ≤ lower0 := le_trans hwα (le_of_eq (max_eq_left hd))
              rw [h3, max_eq_left hc] at hl
              exact absurd hl (not_lt_of_le hwl)

theorem goMinF_spec (ord : Board → List (ℤ × ℤ)) (fuel : ℕ) (b : Board)
    (hb : Balanced b) (hpl : player b = O) (hf : emptiesCount b < fuel + 1)
    (IH : ∀ b' lower upper, Balanced b' → player b' = X → emptiesCount b' < fuel →
      -2 ≤ lower → lower < upper → upper ≤ 2 →
      ∃ r, maxValue ord fuel b' lower upper = .ok r ∧
        failSoft lower upper r (mval fuel b')) :
    ∀ (rest : List (ℤ × ℤ)) (v lower upper0 : ℤ), (∀ a ∈ rest, validAct b a) →
      -2 ≤ lower → lower < upper0 → upper0 ≤ 2 → v ≤ 2 → lower < v → -1 ≤ v →
      ∃ r, goMinF (maxValue ord fuel) b rest v lower (min upper0 v) = .ok r ∧
        r ≤ v ∧ failSoft lower upper0 r
          ((rest.map (fun a => mval fuel (applyA b a))).foldl min v) := by
  intro rest
  induction rest with
  | nil =>
    intro v lower upper0 _ _ _ _ _ _ _
    exact ⟨v, rfl, le_refl v, failSoft_refl lower upper0 v⟩
  | cons a rest ih =>
    intro v lower upper0 hvalid hl2 hlu hu2 hv2 hlv hv1
    have hva : validAct b a := hvalid a (List.mem_cons_self _ _)
    have hres : resultT b a = .ok (applyA b a) := resultT_ok b a hva
    have hb' : Balanced (applyA b a) := balanced_applyA b a hb hva
    have hpl' : player (applyA b a) = X := player_applyA_O b a hb hva hpl
    have hce : emptiesCount (applyA b a) + 1 = emptiesCount b :=
      emptiesCount_applyA b a hva
    have hβl : lower < min upper0 v := lt_min hlu hlv
    obtain ⟨w, hwok, hwFS⟩ := IH (applyA b a) lower (min upper0 v) hb' hpl'
      (by omega) hl2 hβl (le_trans (min_le_left _ _) hu2)
    have htr := mval_range fuel (applyA b a) (by omega)
    have hwr := failSoft_range _ _ _ _ hwFS hl2 hβl
      (le_trans (min_le_left _ _) hu2) htr.1 htr.2
    set t := mval fuel (applyA b a) with hteq
    set K0 := ((rest.map (fun a => mval fuel (applyA b a))).foldl min v) with hK0eq
    have hK0v : K0 ≤ v := foldl_min_le_init _ v
    have hfold : (((a :: rest).map (fun a => mval fuel (applyA b a))).foldl min v)
        = min t K0 := by
      rw [List.map_cons, List.foldl_cons, foldl_min_exch]
    have hstep : goMinF (maxValue ord fuel) b (a :: rest) v lower (min upper0 v)
        = if min v w ≤ lower then .ok (min v w)
          else goMinF (maxValue ord fuel) b rest (min v w) lower
            (min (min upper0 v) (min v w)) := by
      show (match resultT b a with
        | Except.error e => (Except.error e : Except String ℤ)
        | Except.ok b' =>
          match maxValue ord fuel b' lower (min upper0 v) with
          | Except.error e => Except.error e
          | Except.ok w =>
            if min v w ≤ lower then Except.ok (min v w)
            else goMinF (maxValue ord fuel) b rest (min v w) lower
              (min (min upper0 v) (min v w))) = _
      rw [hres]
      show (match maxValue ord fuel (applyA b a) lower (min upper0 v) with
        | Except.error e => (Except.error e : Except String ℤ)
        | Except.ok w =>
          if min v w ≤ lower then Except.ok (min v w)
          else goMinF (maxValue ord fuel) b rest (min v w) lower
            (min (min upper0 v) (min v w))) = _
      rw [hwok]
    rw [hfold, hstep]
    by_cases hbr : min v w ≤ lower
    · rw [if_pos hbr]
      refine ⟨min v w, rfl, min_le_left v w, ?_, ?_, ?_⟩
      · intro _
        have hwv : w ≤ v := by
          rcases le_total w v with hc | hc
          · exact hc
          · rw [min_eq_left hc] at hbr
            exact absurd hbr (not_le_of_lt hlv)
        have hvw : min v w = w := min_eq_right hwv
        rw [hvw] at hbr ⊢
        have htw : t ≤ w := hwFS.1 hbr
        exact le_trans (min_le_left t K0) htw
      · intro h
        exact absurd (lt_of_lt_of_le hlu (le_trans h hbr)) (lt_irrefl _)
      · intro h1 _
        exact absurd (lt_of_lt_of_le h1 hbr) (lt_irrefl _)
    · rw [if_neg hbr]
      have hlvw : lower < min v w := lt_of_not_le hbr
      have harg : min (min upper0 v) (min v w) = min upper0 (min v w) := by
        rw [inf_assoc, ← inf_assoc v v w, inf_idem]
      rw [harg]
      obtain ⟨r, hrok, hvr, hrFS⟩ := ih (min v w) lower upper0
        (fun x hx => hvalid x (List.mem_cons_of_mem a hx))
        hl2 hlu hu2 (le_trans (min_le_left v w) hv2) hlvw
        (le_min hv1 hwr.1)
      have hKrest : ((rest.map (fun a => mval fuel (applyA b a))).foldl min (min v w))
          = min w K0 := by rw [foldl_min_exch]
      rw [hKrest] at hrFS
      refine ⟨r, hrok, le_trans hvr (min_le_left v w), ?_, ?_, ?_⟩
      · intro h
        have h1 : min w K0 ≤ r := hrFS.1 h
        rcases le_total K0 w with hc | hc
        · rw [min_eq_right hc] at h1
          exact le_trans (min_le_right t K0) h1
        · rw [min_eq_left hc] at h1
          have htw : t ≤ w := hwFS.1 (le_trans h1 h)
          exact le_trans (le_trans (min_le_left t K0) htw) h1
      · intro h
        have h2 : r ≤ min w K0 := hrFS.2.1 h
        have hwt : w ≤ t := hwFS.2.1
          (le_trans (min_le_left upper0 v) (le_trans h (le_trans h2 (min_le_left w K0))))
        exact le_min (le_trans (le_trans h2 (min_le_left w K0)) hwt)
          (le_trans h2 (min_le_right w K0))
      · intro hl hr'
        have h3 : r = min w K0 := hrFS.2.2 hl hr'
        by_cases hw : w < min upper0 v
        · have hlw : lower < w := lt_of_lt_of_le hlvw (min_le_right v w)
          have hwt : w = t := hwFS.2.2 hlw hw
          rw [h3, hwt]
        · have htw : w ≤ t := hwFS.2.1 (le_of_not_lt hw)
          rcases le_total K0 w with hc | hc
          · rw [h3, min_eq_right hc, min_eq_right (le_trans hc htw)]
          · have hwβ : min upper0 v ≤ w := le_of_not_lt hw
            rcases le_total upper0 v with hd | hd
            · have hwu : upper0 ≤ w := le_trans (le_of_eq (min_eq_left hd).symm) hwβ
              rw [h3, min_eq_left hc] at hr'
              exact absurd hr' (not_lt_of_le hwu)
            · have hvw : v ≤ w := le_trans (le_of_eq (min_eq_right hd).symm) hwβ
              have heq : w = K0 := le_antisymm hc (le_trans hK0v hvw)
              have hKt : K0 ≤ t := heq ▸ htw
              rw [h3, min_eq_left hc, heq, min_eq_right hKt]

theorem goMaxF_ok (f : Board → ℤ → ℤ → Except String ℤ) (b : Board) :
    ∀ rest : List (ℤ × ℤ), (∀ a ∈ rest, validAct b a) →
      (∀ a ∈ rest, ∀ l u : ℤ, ∃ r, f (applyA b a) l u = .ok r) →
      ∀ v lower upper : ℤ, ∃ r, goMaxF f b rest v lower upper = .ok r := by
  intro rest
  induction rest with
  | nil => intro _ _ v lower upper; exact ⟨v, rfl⟩
  | cons a rest ih =>
    intro hvalid hok v lower upper
    have hres : resultT b a = .ok (applyA b a) :=
      resultT_ok b a (hvalid a (List.mem_cons_self _ _))
    obtain ⟨w, hw⟩ := hok a (List.mem_cons_self _ _) lower upper
    have hstep : goMaxF f b (a :: rest) v lower upper
        = if upper ≤ max v w then .ok (max v w)
          else goMaxF f b rest (max v w) (max lower (max v w)) upper := by
      show (match resultT b a with
        | Except.error e => (Except.error e : Except String ℤ)
        | Except.ok b' =>
          match f b' lower upper with
          | Except.error e => Except.error e
          | Except.ok w =>
            if upper ≤ max v w then Except.ok (max v w)
            else goMaxF f b rest (max v w) (max lower (max v w)) upper) = _
      rw [hres]
      show (match f (applyA b a) lower upper with
        | Except.error e => (Except.error e : Except String ℤ)
        | Except.ok w =>
          if upper ≤ max v w then Except.ok (max v w)
          else goMaxF f b rest (max v w) (max lower (max v w)) upper) = _
      rw [hw]
    rw [hstep]
    by_cases hbr : upper ≤ max v w
    · rw [if_pos hbr]; exact ⟨max v w, rfl⟩
    · rw [if_neg hbr]
      exact ih (fun x hx => hvalid x (List.mem_cons_of_mem a hx))
        (fun x hx => hok x (List.mem_cons_of_mem a hx)) _ _ _

theorem goMinF_ok (f : Board → ℤ → ℤ → Except String ℤ) (b : Board) :
    ∀ rest : List (ℤ × ℤ), (∀ a ∈ rest, validAct b a) →
      (∀ a ∈ rest, ∀ l u : ℤ, ∃ r, f (applyA b a) l u = .ok r) →
      ∀ v lower upper : ℤ, ∃ r, goMinF f b rest v lower upper = .ok r := by
  intro rest
  induction rest with
  | nil => intro _ _ v lower upper; exact ⟨v, rfl⟩
  | cons a rest ih =>
    intro hvalid hok v lower upper
    have hres : resultT b a = .ok (applyA b a) :=
      resultT_ok b a (hvalid a (List.mem_cons_self _ _))
    obtain ⟨w, hw⟩ := hok a (List.mem_cons_self _ _) lower upper
    have hstep : goMinF f b (a :: rest) v lower upper
        = if min v w ≤ lower then .ok (min v w)
          else goMinF f b rest (min v w) lower (min upper (min v w)) := by
      show (match resultT b a with
        | Except.error e => (Except.error e : Except String ℤ)
        | Except.ok b' =>
          match f b' lower upper with
          | Except.error e => Except.error e
          | Except.ok w =>
            if min v w ≤ lower then Except.ok (min v w)
            else goMinF f b rest (min v w) lower (min upper (min v w))) = _
      rw [hres]
      show (match f (applyA b a) lower upper with
        | Except.error e => (Except.error e : Except String ℤ)
        | Except.ok w =>
          if min v w ≤ lower then Except.ok (min v w)
          else goMinF f b rest (min v w) lower (min upper (min v w))) = _
      rw [hw]
    rw [hstep]
    by_cases hbr : min v w ≤ lower
    · rw [if_pos hbr]; exact ⟨min v w, rfl⟩
    · rw [if_neg hbr]
      exact ih (fun x hx => hvalid x (List.mem_cons_of_mem a hx))
        (fun x hx => hok x (List.mem_cons_of_mem a hx)) _ _ _

theorem alphabeta_ok (ord : Board → List (ℤ × ℤ)) (hord : OrdSpec ord) :
    ∀ (fuel : ℕ) (b : Board), emptiesCount b < fuel →
      (∀ lower upper : ℤ, ∃ r, maxValue ord fuel b lower upper = .ok r) ∧
      (∀ lower upper : ℤ, ∃ r, minValue ord fuel b lower upper = .ok r) := by
  intro fuel
  induction fuel with
  | zero => intro b hf; exact absurd hf (by omega)
  | succ fuel ih =>
    intro b hf
    have hvalid : ∀ a ∈ ord b, validAct b a := fun a ha =>
      (mem_actionsB b a).mp (((hord b).2 a).mp ha)
    have hchild : ∀ a ∈ ord b, emptiesCount (applyA b a) < fuel := by
      intro a ha
      have := emptiesCount_applyA b a (hvalid a ha)
      omega
    constructor
    · intro lower upper
      by_cases ht : terminalB b
      · exact ⟨utility b, by simp only [maxValue, if_pos ht]⟩
      · obtain ⟨r, hr⟩ := goMaxF_ok (minValue ord fuel) b (ord b) hvalid
          (fun a ha l u => (ih (applyA b a) (hchild a ha)).2 l u) (-2) lower upper
        exact ⟨r, by simp only [maxValue, if_neg ht]; exact hr⟩
    · intro lower upper
      by_cases ht : terminalB b
      · exact ⟨utility b, by simp only [minValue, if_pos ht]⟩
      · obtain ⟨r, hr⟩ := goMinF_ok (maxValue ord fuel) b (ord b) hvalid
          (fun a ha l u => (ih (applyA b a) (hchild a ha)).1 l u) 2 lower upper
        exact ⟨r, by simp only [minValue, if_neg ht]; exact hr⟩

theorem alphabeta_spec (ord : Board → List (ℤ × ℤ)) (hord : OrdSpec ord) :
    ∀ fuel : ℕ,
    (∀ (b : Board) (lower upper : ℤ), Balanced b → player b = X →
      emptiesCount b < fuel → -2 ≤ lower → lower < upper → upper ≤ 2 →
      ∃ r, maxValue ord fuel b lower upper = .ok r ∧
        failSoft lower upper r (mval fuel b)) ∧
    (∀ (b : Board) (lower upper : ℤ), Balanced b → player b = O →
      emptiesCount b < fuel → -2 ≤ lower → lower < upper → upper ≤ 2 →
      ∃ r, minValue ord fuel b lower upper = .ok r ∧
        failSoft lower upper r (mval fuel b)) := by
  intro fuel
  induction fuel with
  | zero =>
    constructor <;> (intro b lower upper _ _ hf _ _ _; exact absurd hf (by omega))
  | succ fuel ih =>
    obtain ⟨ihX, ihO⟩ := ih
    have hperm : ∀ b : Board, (ord b).Perm (legalList b) := fun b =>
      (List.perm_ext_iff_of_nodup (hord b).1 (legalList_nodup b)).mpr
        (fun x => by rw [(hord b).2 x, mem_legalList, mem_actionsB])
    constructor
    · intro b lower upper hb hpl hf hl hlu hu
      by_cases ht : terminalB b
      · refine ⟨utility b, by simp only [maxValue, if_pos ht], ?_⟩
        have hm : mval (fuel + 1) b = utility b := by rw [mval, if_pos ht]
        rw [hm]
        exact failSoft_refl lower upper (utility b)
      · have hvalid : ∀ a ∈ ord b, validAct b a := fun a ha =>
          (mem_actionsB b a).mp (((hord b).2 a).mp ha)
        obtain ⟨r, hrok, -, hrFS⟩ := goMaxF_spec ord fuel b hb hpl hf ihO
          (ord b) (-2) lower upper hvalid hl hlu hu (by omega) (by omega) (by omega)
        rw [max_eq_left hl] at hrok
        refine ⟨r, by simp only [maxValue, if_neg ht]; exact hrok, ?_⟩
        have hfold : ((legalList b).map (fun a => mval fuel (applyA b a))).foldl max (-2)
            = ((ord b).map (fun a => mval fuel (applyA b a))).foldl max (-2) :=
          foldl_max_perm (((hperm b).symm).map _) (-2)
        have hm : mval (fuel + 1) b
            = ((ord b).map (fun a => mval fuel (applyA b a))).foldl max (-2) := by
          rw [mval, if_neg ht, if_pos hpl, hfold]
        rw [hm]
        exact hrFS
    · intro b lower upper hb hpl hf hl hlu hu
      by_cases ht : terminalB b
      · refine ⟨utility b, by simp only [minValue, if_pos ht], ?_⟩
        have hm : mval (fuel + 1) b = utility b := by rw [mval, if_pos ht]
        rw [hm]
        exact failSoft_refl lower upper (utility b)
      · have hvalid : ∀ a ∈ ord b, validAct b a := fun a ha =>
          (mem_actionsB b a).mp (((hord b).2 a).mp ha)
        obtain ⟨r, hrok, -, hrFS⟩ := goMinF_spec ord fuel b hb hpl hf ihX
          (ord b) 2 lower upper hvalid hl hlu hu (le_refl 2) (by omega) (by omega)
        rw [min_eq_left hu] at hrok
        refine ⟨r, by simp only [minValue, if_neg ht]; exact hrok, ?_⟩
        have hplX : player b ≠ X := by rw [hpl]; decide
        have hfold : ((legalList b).map (fun a => mval fuel (applyA b a))).foldl min 2
            = ((ord b).map (fun a => mval fuel (applyA b a))).foldl min 2 :=
          foldl_min_perm (((hperm b).symm).map _) 2
        have hm : mval (fuel + 1) b
            = ((ord b).map (fun a => mval fuel (applyA b a))).foldl min 2 := by
          rw [mval, if_neg ht, if_neg hplX, hfold]
        rw [hm]
        exact hrFS

theorem emptiesCount_le_9 (b : Board) : emptiesCount b ≤ 9 := by
  unfold emptiesCount
  exact le_trans (Finset.card_filter_le _ _) (by decide)

theorem ordSpec_legalList : OrdSpec legalList := fun b =>
  ⟨legalList_nodup b, fun a => by rw [mem_legalList, mem_actionsB]⟩

theorem ord_perm_legalList (ord : Board → List (ℤ × ℤ)) (hord : OrdSpec ord)
    (b : Board) : (ord b).Perm (legalList b) :=
  (List.perm_ext_iff_of_nodup (hord b).1 (legalList_nodup b)).mpr
    (fun x => by rw [(hord b).2 x, mem_legalList, mem_actionsB])

theorem goRootX_spec (ord : Board → List (ℤ × ℤ)) (hord : OrdSpec ord)
    (b : Board) (hb : Balanced b) (hpl : player b = X) :
    ∀ (rest : List (ℤ × ℤ)) (best : ℤ) (bm : Option (ℤ × ℤ)),
      (∀ a ∈ rest, validAct b a) → -2 ≤ best → best ≤ 1 →
      ((bm = none ∧ best = -2) ∨
        (∃ a0, bm = some a0 ∧ a0 ∈ actionsB b ∧ mval 9 (applyA b a0) = best)) →
      ∃ bm', goRootX ord b rest best bm best = .ok bm' ∧
        ((bm' = none ∧ bm = none ∧
            (rest.map (fun a => mval 9 (applyA b a))).foldl max best = best) ∨
          (∃ a', bm' = some a' ∧ a' ∈ actionsB b ∧
            mval 9 (applyA b a') =
              (rest.map (fun a => mval 9 (applyA b a))).foldl max best)) := by
  intro rest
  induction rest with
  | nil =>
    intro best bm _ _ _ hinv
    rcases hinv with ⟨h1, h2⟩ | ⟨a0, h1, h2, h3⟩
    · exact ⟨bm, rfl, Or.inl ⟨h1, h1, rfl⟩⟩
    · exact ⟨bm, rfl, Or.inr ⟨a0, h1, h2, h3⟩⟩
  | cons a rest ih =>
    intro best bm hvalid hbl hbu hinv
    have hva : validAct b a := hvalid a (List.mem_cons_self _ _)
    have hres : resultT b a = .ok (applyA b a) := resultT_ok b a hva
    have hb' : Balanced (applyA b a) := balanced_applyA b a hb hva
    have hpl' : player (applyA b a) = O := player_applyA_X b a hb hva hpl
    have hce : emptiesCount (applyA b a) + 1 = emptiesCount b :=
      emptiesCount_applyA b a hva
    have hf9 : emptiesCount (applyA b a) < 9 := by
      have := emptiesCount_le_9 b; omega
    obtain ⟨w, hwok, hwFS⟩ := (alphabeta_spec ord hord 9).2 (applyA b a) best 2
      hb' hpl' hf9 hbl (by omega) (le_refl 2)
    have htr := mval_range 9 (applyA b a) hf9
    have hwr := failSoft_range _ _ _ _ hwFS hbl (by omega) (le_refl 2) htr.1 htr.2
    have hstep : goRootX ord b (a :: rest) best bm best
        = if best < w then goRootX ord b rest w (some a) (max best w)
          else goRootX ord b rest best bm best := by
      show (match resultT b a with
        | Except.error e => (Except.error e : Except String (Option (ℤ × ℤ)))
        | Except.ok b' =>
          match minValue ord 9 b' best 2 with
          | Except.error e => Except.error e
          | Except.ok score =>
            if best < score then goRootX ord b rest score (some a) (max best score)
            else goRootX ord b rest best bm best) = _
      rw [hres]
      show (match minValue ord 9 (applyA b a) best 2 with
        | Except.error e => (Except.error e : Except String (Option (ℤ × ℤ)))
        | Except.ok score =>
          if best < score then goRootX ord b rest score (some a) (max best score)
          else goRootX ord b rest best bm best) = _
      rw [hwok]
    rw [hstep]
    have hfold : ((a :: rest).map (fun x => mval 9 (applyA b x))).foldl max best
        = (rest.map (fun x => mval 9 (applyA b x))).foldl max
            (max best (mval 9 (applyA b a))) := by
      rw [List.map_cons, List.foldl_cons]
    by_cases hup : best < w
    · rw [if_pos hup, max_eq_right (le_of_lt hup)]
      have hwt : w = mval 9 (applyA b a) := hwFS.2.2 hup (by omega)
      obtain ⟨bm', hok, hconc⟩ := ih w (some a)
        (fun x hx => hvalid x (List.mem_cons_of_mem a hx))
        (by omega) (by omega)
        (Or.inr ⟨a, rfl, (mem_actionsB b a).mpr hva, hwt.symm⟩)
      refine ⟨bm', hok, ?_⟩
      have hbase : max best (mval 9 (applyA b a)) = w := by
        rw [← hwt]; exact max_eq_right (le_of_lt hup)
      rw [hfold, hbase]
      rcases hconc with ⟨-, hc, -⟩ | ⟨a', h1, h2, h3⟩
      · cases hc
      · exact Or.inr ⟨a', h1, h2, h3⟩
    · rw [if_neg hup]
      have hwle : w ≤ best := le_of_not_lt hup
      have htw : mval 9 (applyA b a) ≤ w := hwFS.1 hwle
      obtain ⟨bm', hok, hconc⟩ := ih best bm
        (fun x hx => hvalid x (List.mem_cons_of_mem a hx)) hbl hbu hinv
      refine ⟨bm', hok, ?_⟩
      have hbase : max best (mval 9 (applyA b a)) = best :=
        max_eq_left (le_trans htw hwle)
      rw [hfold, hbase]
      exact hconc

theorem goRootO_spec (ord : Board → List (ℤ × ℤ)) (hord : OrdSpec ord)
    (b : Board) (hb : Balanced b) (hpl : player b = O) :
    ∀ (rest : List (ℤ × ℤ)) (best : ℤ) (bm : Option (ℤ × ℤ)),
      (∀ a ∈ rest, validAct b a) → -2 < best → best ≤ 2 →
      ((bm = none ∧ best = 2) ∨
        (∃ a0, bm = some a0 ∧ a0 ∈ actionsB b ∧ mval 9 (applyA b a0) = best)) →
      ∃ bm', goRootO ord b rest best bm best = .ok bm' ∧
        ((bm' = none ∧ bm = none ∧
            (rest.map (fun a => mval 9 (applyA b a))).foldl min best = best) ∨
          (∃ a', bm' = some a' ∧ a' ∈ actionsB b ∧
            mval 9 (applyA b a') =
              (rest.map (fun a => mval 9 (applyA b a))).foldl min best)) := by
  intro rest
  induction rest with
  | nil =>
    intro best bm _ _ _ hinv
    rcases hinv with ⟨h1, h2⟩ | ⟨a0, h1, h2, h3⟩
    · exact ⟨bm, rfl, Or.inl ⟨h1, h1, rfl⟩⟩
    · exact ⟨bm, rfl, Or.inr ⟨a0, h1, h2, h3⟩⟩
  | cons a rest ih =>
    intro best bm hvalid hbl hbu hinv
    have hva : validAct b a := hvalid a (List.mem_cons_self _ _)
    have hres : resultT b a = .ok (applyA b a) := resultT_ok b a hva
    have hb' : Balanced (applyA b a) := balanced_applyA b a hb hva
    have hpl' : player (applyA b a) = X := player_applyA_O b a hb hva hpl
    have hce : emptiesCount (applyA b a) + 1 = emptiesCount b :=
      emptiesCount_applyA b a hva
    have hf9 : emptiesCount (applyA b a) < 9 := by
      have := emptiesCount_le_9 b; omega
    obtain ⟨w, hwok, hwFS⟩ := (alphabeta_spec ord hord 9).1 (applyA b a) (-2) best
      hb' hpl' hf9 (le_refl (-2)) hbl hbu
    have htr := mval_range 9 (applyA b a) hf9
    have hwr := failSoft_range _ _ _ _ hwFS (le_refl (-2)) hbl hbu htr.1 htr.2
    have hstep : goRootO ord b (a :: rest) best bm best
        = if w < best then goRootO ord b rest w (some a) (min best w)
          else goRootO ord b rest best bm best := by
      show (match resultT b a with
        | Except.error e => (Except.error e : Except String (Option (ℤ × ℤ)))
        | Except.ok b' =>
          match maxValue ord 9 b' (-2) best with
          | Except.error e => Except.error e
          | Except.ok score =>
            if score < best then goRootO ord b rest score (some a) (min best score)
            else goRootO ord b rest best bm best) = _
      rw [hres]
      show (match maxValue ord 9 (applyA b a) (-2) best with
        | Except.error e => (Except.error e : Except String (Option (ℤ × ℤ)))
        | Except.ok score =>
          if score < best then goRootO ord b rest score (some a) (min best score)
          else goRootO ord b rest best bm best) = _
      rw [hwok]
    rw [hstep]
    have hfold : ((a :: rest).map (fun x => mval 9 (applyA b x))).foldl min best
        = (rest.map (fun x => mval 9 (applyA b x))).foldl min
            (min best (mval 9 (applyA b a))) := by
      rw [List.map_cons, List.foldl_cons]
    by_cases hup : w < best
    · rw [if_pos hup, min_eq_right (le_of_lt hup)]
      have hwt : w = mval 9 (applyA b a) := hwFS.2.2 (by omega) hup
      obtain ⟨bm', hok, hconc⟩ := ih w (some a)
        (fun x hx => hvalid x (List.mem_cons_of_mem a hx))
        (by omega) (by omega)
        (Or.inr ⟨a, rfl, (mem_actionsB b a).mpr hva, hwt.symm⟩)
      refine ⟨bm', hok, ?_⟩
      have hbase : min best (mval 9 (applyA b a)) = w := by
        rw [← hwt]; exact min_eq_right (le_of_lt hup)
      rw [hfold, hbase]
      rcases hconc with ⟨-, hc, -⟩ | ⟨a', h1, h2, h3⟩
      · cases hc
      · exact Or.inr ⟨a', h1, h2, h3⟩
    · rw [if_neg hup]
      have hwge : best ≤ w := le_of_not_lt hup
      have htw : w ≤ mval 9 (applyA b a) := hwFS.2.1 hwge
      obtain ⟨bm', hok, hconc⟩ := ih best bm
        (fun x hx => hvalid x (List.mem_cons_of_mem a hx)) hbl hbu hinv
      refine ⟨bm', hok, ?_⟩
      have hbase : min best (mval 9 (applyA b a)) = best :=
        min_eq_left (le_trans hwge htw)
      rw [hfold, hbase]
      exact hconc

theorem goRootX_ok (ord : Board → List (ℤ × ℤ)) (hord : OrdSpec ord) (b : Board) :
    ∀ (rest : List (ℤ × ℤ)) (best : ℤ) (bm : Option (ℤ × ℤ)) (lower : ℤ),
      (∀ a ∈ rest, validAct b a) →
      ∃ r, goRootX ord b rest best bm lower = .ok r := by
  intro rest
  induction rest with
  | nil => intro best bm lower _; exact ⟨bm, rfl⟩
  | cons a rest ih =>
    intro best bm lower hvalid
    have hva : validAct b a := hvalid a (List.mem_cons_self _ _)
    have hres : resultT b a = .ok (applyA b a) := resultT_ok b a hva
    have hf9 : emptiesCount (applyA b a) < 9 := by
      have h1 := emptiesCount_applyA b a hva
      have h2 := emptiesCount_le_9 b
      omega
    obtain ⟨w, hwok⟩ := (alphabeta_ok ord hord 9 (applyA b a) hf9).2 lower 2
    have hstep : goRootX ord b (a :: rest) best bm lower
        = if best < w then goRootX ord b rest w (some a) (max lower w)
          else goRootX ord b rest best bm lower := by
      show (match resultT b a with
        | Except.error e => (Except.error e : Except String (Option (ℤ × ℤ)))
        | Except.ok b' =>
          match minValue ord 9 b' lower 2 with
          | Except.error e => Except.error e
          | Except.ok score =>
            if best < score then goRootX ord b rest score (some a) (max lower score)
            else goRootX ord b rest best bm lower) = _
      rw [hres]
      show (match minValue ord 9 (applyA b a) lower 2 with
        | Except.error e => (Except.error e : Except String (Option (ℤ × ℤ)))
        | Except.ok score =>
          if best < score then goRootX ord b rest score (some a) (max lower score)
          else goRootX ord b rest best bm lower) = _
      rw [hwok]
    rw [hstep]
    by_cases hup : best < w
    · rw [if_pos hup]
      exact ih w (some a) (max lower w) (fun x hx => hvalid x (List.mem_cons_of_mem a hx))
    · rw [if_neg hup]
      exact ih best bm lower (fun x hx => hvalid x (List.mem_cons_of_mem a hx))

theorem goRootO_ok (ord : Board → List (ℤ × ℤ)) (hord : OrdSpec ord) (b : Board) :
    ∀ (rest : List (ℤ × ℤ)) (best : ℤ) (bm : Option (ℤ × ℤ)) (upper : ℤ),
      (∀ a ∈ rest, validAct b a) →
      ∃ r, goRootO ord b rest best bm upper = .ok r := by
  intro rest
  induction rest with
  | nil => intro best bm upper _; exact ⟨bm, rfl⟩
  | cons a rest ih =>
    intro best bm upper hvalid
    have hva : validAct b a := hvalid a (List.mem_cons_self _ _)
    have hres : resultT b a = .ok (applyA b a) := resultT_ok b a hva
    have hf9 : emptiesCount (applyA b a) < 9 := by
      have h1 := emptiesCount_applyA b a hva
      have h2 := emptiesCount_le_9 b
      omega
    obtain ⟨w, hwok⟩ := (alphabeta_ok ord hord 9 (applyA b a) hf9).1 (-2) upper
    have hstep : goRootO ord b (a :: rest) best bm upper
        = if w < best then goRootO ord b rest w (some a) (min upper w)
          else goRootO ord b rest best bm upper := by
      show (match resultT b a with
        | Except.error e => (Except.error e : Except String (Option (ℤ × ℤ)))
        | Except.ok b' =>
          match maxValue ord 9 b' (-2) upper with
          | Except.error e => Except.error e
          | Except.ok score =>
            if score < best then goRootO ord b rest score (some a) (min upper score)
            else goRootO ord b rest best bm upper) = _
      rw [hres]
      show (match maxValue ord 9 (applyA b a) (-2) upper with
        | Except.error e => (Except.error e : Except String (Option (ℤ × ℤ)))
        | Except.ok score =>
          if score < best then goRootO ord b rest score (some a) (min upper score)
          else goRootO ord b rest best bm upper) = _
      rw [hwok]
    rw [hstep]
    by_cases hup : w < best
    · rw [if_pos hup]
      exact ih w (some a) (min upper w) (fun x hx => hvalid x (List.mem_cons_of_mem a hx))
    · rw [if_neg hup]
      exact ih best bm upper (fun x hx => hvalid x (List.mem_cons_of_mem a hx))

theorem mval_succ (fuel : ℕ) (b : Board) :
    mval (fuel + 1) b = if terminalB b then utility b
      else if player b = X then
        ((legalList b).map (fun a => mval fuel (applyA b a))).foldl max (-2)
      else ((legalList b).map (fun a => mval fuel (applyA b a))).foldl min 2 := by
  rw [mval]

/-- The board `X X _ / O O _ / _ _ _` from the specification's test list
(`X` to move, must take the winning square). -/
def bWin : Board := fun i j =>
  if i.val = 0 ∧ j.val ≤ 1 then some Player.X
  else if i.val = 1 ∧ j.val ≤ 1 then some Player.O
  else none

end TTT

open TTT.Player

/-- Claim C3: `minimax(board)` returns `None` iff the board is terminal; on a
non-terminal board reachable in legal play (captured by the mark-count
invariant `Balanced`) it returns a legal move whose unpruned full-depth
minimax value equals the optimal minimax value of the position, for every
iteration order of the Python action sets (the order oracle `ord`):
alpha-beta pruning never changes the result. -/
theorem claim_C3 (ord : Board → List (ℤ × ℤ)) (b : Board) (hord : OrdSpec ord)
    (hb : Balanced b) :
    (minimaxT ord b = .ok none ↔ terminalB b) ∧
    (¬ terminalB b → ∃ a, minimaxT ord b = .ok (some a) ∧ a ∈ actionsB b ∧
      Mval (applyA b a) = Mval b) := by
  have hmain : ¬ terminalB b → ∃ a, minimaxT ord b = .ok (some a) ∧
      a ∈ actionsB b ∧ Mval (applyA b a) = Mval b := by
    intro ht
    have hne : ord b ≠ [] := by
      intro h0
      have hperm := ord_perm_legalList ord hord b
      rw [h0] at hperm
      exact legalList_ne_nil b ht hperm.nil_eq.symm
    obtain ⟨a0, ha0⟩ := List.exists_mem_of_ne_nil _ hne
    have hvalid : ∀ a ∈ ord b, validAct b a := fun a ha =>
      (mem_actionsB b a).mp (((hord b).2 a).mp ha)
    have hchildlt : ∀ a ∈ ord b, emptiesCount (applyA b a) < 9 := fun a ha => by
      have h1 := emptiesCount_applyA b a (hvalid a ha)
      have h2 := emptiesCount_le_9 b
      omega
    have hmem0 : mval 9 (applyA b a0) ∈ (ord b).map (fun x => mval 9 (applyA b x)) :=
      List.mem_map_of_mem _ ha0
    have hr0 := mval_range 9 (applyA b a0) (hchildlt a0 ha0)
    have hMeq : ∀ a', a' ∈ actionsB b → mval 9 (applyA b a') = Mval (applyA b a') := by
      intro a' h2
      have hva' : validAct b a' := (mem_actionsB b a').mp h2
      have h1' := emptiesCount_applyA b a' hva'
      have h2' := emptiesCount_le_9 b
      exact mval_irrel 9 10 (applyA b a') (by omega) (by omega)
    cases hpl : player b with
    | X =>
      obtain ⟨bm', hok, hconc⟩ := goRootX_spec ord hord b hb hpl (ord b) (-2) none
        hvalid (by omega) (by omega) (Or.inl ⟨rfl, rfl⟩)
      have hmm : minimaxT ord b = goRootX ord b (ord b) (-2) none (-2) := by
        simp only [minimaxT, if_neg ht, if_pos hpl]
      rcases hconc with ⟨-, -, hfold⟩ | ⟨a', h1, h2, h3⟩
      · have := le_foldl_max_of_mem _ (-2) _ hmem0
        omega
      · refine ⟨a', by rw [hmm, hok, h1], h2, ?_⟩
        have hm10 : Mval b
            = ((legalList b).map (fun x => mval 9 (applyA b x))).foldl max (-2) := by
          have he : Mval b = mval (9 + 1) b := rfl
          rw [he, mval_succ, if_neg ht, if_pos hpl]
        have hperm2 := foldl_max_perm
          ((ord_perm_legalList ord hord b).map (fun x => mval 9 (applyA b x))) (-2)
        rw [← hMeq a' h2, h3, hm10]
        exact hperm2
    | O =>
      obtain ⟨bm', hok, hconc⟩ := goRootO_spec ord hord b hb hpl (ord b) 2 none
        hvalid (by omega) (by omega) (Or.inl ⟨rfl, rfl⟩)
      have hmm : minimaxT ord b = goRootO ord b (ord b) 2 none 2 := by
        have hplX : ¬ player b = X := by rw [hpl]; decide
        simp only [minimaxT, if_neg ht, if_neg hplX]
      rcases hconc with ⟨-, -, hfold⟩ | ⟨a', h1, h2, h3⟩
      · have := foldl_min_le_of_mem _ 2 _ hmem0
        omega
      · refine ⟨a', by rw [hmm, hok, h1], h2, ?_⟩
        have hplX : ¬ player b = X := by rw [hpl]; decide
        have hm10 : Mval b
            = ((legalList b).map (fun x => mval 9 (applyA b x))).foldl min 2 := by
          have he : Mval b = mval (9 + 1) b := rfl
          rw [he, mval_succ, if_neg ht, if_neg hplX]
        have hperm2 := foldl_min_perm
          ((ord_perm_legalList ord hord b).map (fun x => mval 9 (applyA b x))) 2
        rw [← hMeq a' h2, h3, hm10]
        exact hperm2
  constructor
  · constructor
    · intro h
      by_contra ht
      obtain ⟨a, ha, -, -⟩ := hmain ht
      rw [h] at ha
      exact Option.noConfusion (Except.ok.inj ha)
    · intro ht
      simp only [minimaxT, if_pos ht]
  · exact hmain

/-- Witness for C3 at the specification's own example board
`X X _ / O O _ / _ _ _` (non-terminal, balanced, `X` to move): with the
row-major iteration order, `minimax` returns an optimal legal move. -/
theorem claim_C3_witness :
    Balanced bWin ∧ ¬ terminalB bWin ∧
    ∃ a, minimaxT legalList bWin = .ok (some a) ∧ a ∈ actionsB bWin ∧
      Mval (applyA bWin a) = Mval bWin :=
  ⟨by decide, by decide,
    (claim_C3 legalList bWin ordSpec_legalList (by decide)).2 (by decide)⟩

/-- Claim C8: the adversarial search only ever applies `result` to moves drawn
from `actions` of the board being expanded, so the invalid-move error branch
is unreachable: `minimax` never returns an error, on any board and for any
iteration order of the action sets. -/
theorem claim_C8 (ord : Board → List (ℤ × ℤ)) (b : Board) (e : String)
    (hord : OrdSpec ord) : minimaxT ord b ≠ .error e := by
  by_cases ht : terminalB b
  · simp only [minimaxT, if_pos ht]
    exact fun h => Except.noConfusion h
  · have hvalid : ∀ a ∈ ord b, validAct b a := fun a ha =>
      (mem_actionsB b a).mp (((hord b).2 a).mp ha)
    by_cases hpl : player b = X
    · obtain ⟨r, hr⟩ := goRootX_ok ord hord b (ord b) (-2) none (-2) hvalid
      simp only [minimaxT, if_neg ht, if_pos hpl]
      rw [hr]
      exact fun h => Except.noConfusion h
    · obtain ⟨r, hr⟩ := goRootO_ok ord hord b (ord b) 2 none 2 hvalid
      simp only [minimaxT, if_neg ht, if_neg hpl]
      rw [hr]
      exact fun h => Except.noConfusion h

/-- Witness for C8 at a concrete input: on the example board, `minimax` with
the row-major order does not raise. -/
theorem claim_C8_witness : minimaxT legalList bWin ≠ .error "Invalid action" :=
  claim_C8 legalList bWin "Invalid action" ordSpec_legalList

namespace Deg

/-- The graph store of `degrees.py`: the key sets of the `people` and
`movies` dicts, a person's movie set (`people[p]["movies"]`) and a movie's
star set (`movies[m]["stars"]`). -/
structure Store where
  pdom : Finset ℕ
  mdom : Finset ℕ
  peopleMovies : ℕ → Finset ℕ
  movieStars : ℕ → Finset ℕ

/-- The graph invariant of the specification (§3): the "starred in" relation
is symmetric across the two mappings, and absent ids carry empty sets. -/
def WF (s : Store) : Prop :=
  (∀ p m, m ∈ s.peopleMovies p ↔ p ∈ s.movieStars m) ∧
  (∀ p, p ∉ s.pdom → s.peopleMovies p = ∅) ∧
  (∀ m, m ∉ s.mdom → s.movieStars m = ∅)

theorem WF.stars_sub_pdom {s : Store} (h : WF s) {m q : ℕ}
    (hq : q ∈ s.movieStars m) : q ∈ s.pdom := by
  by_contra hq'
  have := h.2.1 q hq'
  rw [← h.1 q m] at hq
  rw [this] at hq
  exact absurd hq (Finset.not_mem_empty m)

theorem WF.movies_sub_mdom {s : Store} (h : WF s) {p m : ℕ}
    (hm : m ∈ s.peopleMovies p) : m ∈ s.mdom := by
  by_contra hm'
  have := h.2.2 m hm'
  rw [h.1 p m] at hm
  rw [this] at hm
  exact absurd hm (Finset.not_mem_empty p)

/-- Modelled from the spec: the search `Node` of `util.py` (not under
`src/`) — §3 "Search Node": a tuple of the current person-id, the movie-id
used to reach it, and a reference to the parent node or none for the root. -/
inductive SNode where
  | root (state : ℕ)
  | child (state : ℕ) (action : ℕ) (parent : SNode)

def SNode.state : SNode → ℕ
  | root s => s
  | child s _ _ => s

def SNode.action : SNode → Option ℕ
  | root _ => none
  | child _ a _ => some a

def SNode.depth : SNode → ℕ
  | root _ => 0
  | child _ _ p => p.depth + 1

/-- The path-reconstruction loop of the dequeue-time branch, which keeps the
root pair `(None, source)` (lines 174–178 of `degrees.py`). -/
def chain1 : SNode → List (Option ℕ × ℕ)
  | .root s => [(none, s)]
  | .child s a p => (some a, s) :: chain1 p

/-- The path-reconstruction loop of the neighbor-hit branch, which skips the
root node (`if node.action is not None`, lines 190–193). -/
def chain2 : SNode → List (Option ℕ × ℕ)
  | .root _ => []
  | .child s a p => (some a, s) :: chain2 p

/-- Modelled from the spec: `QueueFrontier.contains_state` of `util.py` (not
under `src/`) — whether some frontier node carries this person. -/
def containsState (fr : List SNode) (q : ℕ) : Prop :=
  ∃ n ∈ fr, SNode.state n = q

instance (fr : List SNode) (q : ℕ) : Decidable (containsState fr q) :=
  List.decidableBEx _ fr

/-- `neighbors_for_person`: all `(movie_id, person_id)` pairs for the
person's movies and each such movie's stars (`degrees.py`, lines 237–248).
Note the inner loop variable shadows the parameter, so the person's own
pair is included whenever they star in one of their movies. -/
def neighborsForPerson (s : Store) (p : ℕ) : Finset (ℕ × ℕ) :=
  (s.peopleMovies p).biUnion (fun m => (s.movieStars m).image (fun q => (m, q)))

/-- The elements of a finite id set in ascending order (insertion sort lifts
to the multiset because sorting is permutation-invariant). -/
def sortedList (t : Finset ℕ) : List ℕ :=
  Quot.liftOn t.val (fun l => l.insertionSort (· ≤ ·)) (fun l1 l2 h =>
    List.eq_of_perm_of_sorted
      ((List.perm_insertionSort _ l1).trans
        ((Quotient.exact (Quotient.sound h)).trans
          (List.perm_insertionSort _ l2).symm))
      (List.sorted_insertionSort _ l1) (List.sorted_insertionSort _ l2))

theorem mem_sortedList (t : Finset ℕ) (x : ℕ) : x ∈ sortedList t ↔ x ∈ t := by
  rcases t with ⟨ms, hnd⟩
  revert hnd
  refine Quotient.inductionOn ms ?_
  intro l hnd
  show x ∈ l.insertionSort (· ≤ ·) ↔ x ∈ (⟨Quotient.mk _ l, hnd⟩ : Finset ℕ)
  rw [Finset.mem_mk, Multiset.quot_mk_to_coe, Multiset.mem_coe]
  exact (List.perm_insertionSort _ l).mem_iff

/-- The same set as a list: the order in which the Python set iteration
happens to produce the pairs, fixed here as grouped by movie in ascending
order. -/
def neighborsList (s : Store) (p : ℕ) : List (ℕ × ℕ) :=
  (sortedList (s.peopleMovies p)).flatMap
    (fun m => (sortedList (s.movieStars m)).map (fun q => (m, q)))

theorem mem_neighborsList (s : Store) (p : ℕ) (x : ℕ × ℕ) :
    x ∈ neighborsList s p ↔
      x.1 ∈ s.peopleMovies p ∧ x.2 ∈ s.movieStars x.1 := by
  unfold neighborsList
  simp only [List.mem_flatMap, List.mem_map, mem_sortedList]
  constructor
  · rintro ⟨m, hm, q, hq, rfl⟩
    exact ⟨hm, hq⟩
  · rintro ⟨h1, h2⟩
    exact ⟨x.1, h1, x.2, h2, rfl⟩

/-- The enqueue loop at the end of an expansion (`degrees.py`, lines
198–205): a child is enqueued unless its person is explored, its movie is
explored, or the person is already on the frontier. -/
def enqueueAll (node : SNode) (ep em : Finset ℕ) :
    List (ℕ × ℕ) → List SNode → List SNode
  | [], fr => fr
  | (m, q) :: rest, fr =>
    enqueueAll node ep em rest
      (if q ∉ ep ∧ m ∉ em ∧ ¬ containsState fr q
        then fr ++ [SNode.child q m node] else fr)

/-- The dequeue-time skip condition (`movie is None or movie in
explored_movies`, line 162). -/
def movieSeen (em : Finset ℕ) : Option ℕ → Prop
  | none => True
  | some m => m ∈ em

instance : ∀ (em : Finset ℕ) (o : Option ℕ), Decidable (movieSeen em o)
  | _, none => isTrue trivial
  | em, some m => inferInstanceAs (Decidable (m ∈ em))

/-- One reachable-path datum: the `(movie_id | None, person_id)` pairs the
Python lists carry. -/
abbrev Path := List (Option ℕ × ℕ)

mutual

/-- The `while True` search loop of `shortest_path` (`degrees.py`, lines
151–205), with an explicit fuel argument in place of unbounded iteration;
fuel sufficiency is proved below, so the `0` branch is unreachable.  A
dequeued node is skipped when its person (and incoming movie, if any) was
already explored; otherwise both are marked explored and the node is checked
(`spAfter`) and expanded. -/
def spLoop (s : Store) (target : ℕ) :
    ℕ → Finset ℕ → Finset ℕ → List SNode → Except String (Option Path)
  | 0, _, _, _ => .error "fuel exhausted"
  | fuel + 1, ep, em, fr =>
    match fr with
    | [] => .ok none
    | node :: rest =>
      if node.state ∈ ep ∧ movieSeen em node.action then
        spLoop s target fuel ep em rest
      else
        match node.action with
        | some m =>
          if target ∈ s.movieStars m then .ok (some ((chain1 node).reverse))
          else spAfter s target fuel (insert node.state ep) (insert m em) node rest
        | none => spAfter s target fuel (insert node.state ep) em node rest

/-- The second half of one loop iteration: the neighbor scan of the current
person (`degrees.py`, lines 181–205) — return through the first co-star pair
hitting the target, else enqueue the unexplored neighbors and continue. -/
def spAfter (s : Store) (target : ℕ) (fuel : ℕ) (ep' em' : Finset ℕ)
    (node : SNode) (rest : List SNode) : Except String (Option Path) :=
  match (neighborsList s node.state).find? (fun mp => decide (mp.2 = target)) with
  | some mp => .ok (some (((some mp.1, mp.2) :: chain2 node)).reverse)
  | none =>
    spLoop s target fuel ep' em'
      (enqueueAll node ep' em' (neighborsList s node.state) rest)

end

/-- `shortest_path(source, target)`: empty path when the ids coincide, an
explicit error when the source has no movies, else the BFS loop seeded with
the root node.  The fuel `2 + 2·|people|` strictly dominates the loop
measure, as proved below. -/
def shortestPath (s : Store) (source target : ℕ) : Except String (Option Path) :=
  if source = target then .ok (some [])
  else if s.peopleMovies source = ∅ then .error "source has no movies"
  else spLoop s target (2 + 2 * s.pdom.card) ∅ ∅ [SNode.root source]

/-- Walks of a given length in the person-costar graph: one step moves from
`p` to any star of any movie of `p`. -/
def walkN (s : Store) : ℕ → ℕ → ℕ → Prop
  | 0, p, q => p = q
  | n + 1, p, q => ∃ m ∈ s.peopleMovies p, ∃ r ∈ s.movieStars m, walkN s n r q

instance walkN.dec (s : Store) : ∀ (n p q : ℕ), Decidable (walkN s n p q)
  | 0, p, q => decidable_of_iff (p = q) (by rw [walkN])
  | n + 1, p, q =>
    have := walkN.dec s n
    decidable_of_iff (∃ m ∈ s.peopleMovies p, ∃ r ∈ s.movieStars m, walkN s n r q)
      (by rw [walkN])

/-- Validity of a returned path viewed from `prev`: every hop carries a real
movie containing both the previous person and the hop's person, and the last
person is the target. -/
def validHops (s : Store) : ℕ → Path → ℕ → Prop
  | prev, [], tgt => prev = tgt
  | prev, (om, q) :: rest, tgt =>
    ∃ m, om = some m ∧ prev ∈ s.movieStars m ∧ q ∈ s.movieStars m ∧
      validHops s q rest tgt

/-- Validity of a search node: its parent chain is rooted at the source and
every link is a real store edge. -/
inductive ValidNode (s : Store) (source : ℕ) : SNode → Prop where
  | root : ValidNode s source (SNode.root source)
  | child : ∀ (p : SNode) (m q : ℕ), ValidNode s source p →
      m ∈ s.peopleMovies p.state → q ∈ s.movieStars m →
      ValidNode s source (SNode.child q m p)

end Deg

namespace Deg

/-- A tiny well-formed store: persons 0 and 1 co-star in movie 5. -/
def exS : Store :=
  ⟨{0, 1}, {5}, fun p => if p = 0 ∨ p = 1 then {5} else ∅,
    fun m => if m = 5 then {0, 1} else ∅⟩

theorem wf_exS : WF exS := by
  refine ⟨?_, ?_, ?_⟩
  · intro p m
    show m ∈ (if p = 0 ∨ p = 1 then ({5} : Finset ℕ) else ∅) ↔
      p ∈ (if m = 5 then ({0, 1} : Finset ℕ) else ∅)
    by_cases hp : p = 0 ∨ p = 1
    · rw [if_pos hp]
      by_cases hm : m = 5
      · subst hm
        rw [if_pos rfl]
        simp [Finset.mem_insert, Finset.mem_singleton, hp]
      · rw [if_neg hm]
        simp [Finset.mem_singleton, hm]
    · rw [if_neg hp]
      by_cases hm : m = 5
      · subst hm
        rw [if_pos rfl]
        simp [Finset.mem_insert, Finset.mem_singleton, hp]
      · rw [if_neg hm]
        simp
  · intro p hp
    have hp' : ¬ (p = 0 ∨ p = 1) := by
      rintro (rfl | rfl) <;> exact hp (by decide)
    show (if p = 0 ∨ p = 1 then ({5} : Finset ℕ) else ∅) = ∅
    rw [if_neg hp']
  · intro m hm
    have hm' : ¬ m = 5 := by rintro rfl; exact hm (by decide)
    show (if m = 5 then ({0, 1} : Finset ℕ) else ∅) = ∅
    rw [if_neg hm']

/-- A disconnected well-formed store: person 0 stars alone in movie 10,
person 1 is present but isolated. -/
def exD : Store :=
  ⟨{0, 1}, {10}, fun p => if p = 0 then {10} else ∅,
    fun m => if m = 10 then {0} else ∅⟩

theorem wf_exD : WF exD := by
  refine ⟨?_, ?_, ?_⟩
  · intro p m
    show m ∈ (if p = 0 then ({10} : Finset ℕ) else ∅) ↔
      p ∈ (if m = 10 then ({0} : Finset ℕ) else ∅)
    by_cases hp : p = 0
    · subst hp
      rw [if_pos rfl]
      by_cases hm : m = 10
      · subst hm; rw [if_pos rfl]; simp
      · rw [if_neg hm]; simp [Finset.mem_singleton, hm]
    · rw [if_neg hp]
      by_cases hm : m = 10
      · subst hm; rw [if_pos rfl]; simp [Finset.mem_singleton, hp]
      · rw [if_neg hm]; simp
  · intro p hp
    have hp' : ¬ p = 0 := by rintro rfl; exact hp (by decide)
    show (if p = 0 then ({10} : Finset ℕ) else ∅) = ∅
    rw [if_neg hp']
  · intro m hm
    have hm' : ¬ m = 10 := by rintro rfl; exact hm (by decide)
    show (if m = 10 then ({0} : Finset ℕ) else ∅) = ∅
    rw [if_neg hm']

end Deg

open Deg

/-- Claim C9: for every store and person `P`, `shortest_path(P, P)` returns
the empty sequence — not an error and not the not-found value.  The equality
check precedes every store access, so no presence hypothesis is needed. -/
theorem claim_C9 (s : Store) (p : ℕ) : shortestPath s p p = .ok (some []) := by
  unfold shortestPath
  rw [if_pos rfl]

/-- Claim C10: when source equals target and the source has no recorded
movies, the zero-degrees result takes precedence over the no-movies error,
because the equality check is performed first. -/
theorem claim_C10 (s : Store) (p : ℕ) (_h : s.peopleMovies p = ∅) :
    shortestPath s p p = .ok (some []) := by
  unfold shortestPath
  rw [if_pos rfl]

/-- Witness for C10: the isolated person of the disconnected example store
has an empty movie set, and the search still returns the empty path. -/
theorem claim_C10_witness :
    exD.peopleMovies 1 = ∅ ∧ shortestPath exD 1 1 = .ok (some []) :=
  ⟨by decide, claim_C10 exD 1 (by decide)⟩

/-- Counterexample to C6 as stated: expanding person 0 of the example store
(present in the store, starring in movie 5 together with person 1) yields a
pair whose person component is 0 itself — the literal self-pair. -/
theorem claim_C6_cex :
    (0 : ℕ) ∈ exS.pdom ∧ ((5 : ℕ), (0 : ℕ)) ∈ neighborsForPerson exS 0 := by
  constructor
  · decide
  · decide

/-- Claim C6, amended: the set computed when expanding `P` contains exactly
the pairs `(m, q)` with `m` a movie of `P` and `q` a star of `m` — including
the literal self-pair `(m, P)` whenever `P` is among the stars of one of
their own movies (the inner loop variable shadows the parameter in
`neighbors_for_person`, so no self-exclusion happens; the search instead
filters the person out later via the explored set). -/
theorem claim_C6 :
    (∀ (s : Store) (p m q : ℕ), (m, q) ∈ neighborsForPerson s p ↔
      m ∈ s.peopleMovies p ∧ q ∈ s.movieStars m) ∧
    (∀ (s : Store) (p m : ℕ), m ∈ s.peopleMovies p → p ∈ s.movieStars m →
      (m, p) ∈ neighborsForPerson s p) := by
  have hmem : ∀ (s : Store) (p m q : ℕ), (m, q) ∈ neighborsForPerson s p ↔
      m ∈ s.peopleMovies p ∧ q ∈ s.movieStars m := by
    intro s p m q
    unfold neighborsForPerson
    simp only [Finset.mem_biUnion, Finset.mem_image, Prod.mk.injEq]
    constructor
    · rintro ⟨m', hm', q', hq', rfl, rfl⟩
      exact ⟨hm', hq'⟩
    · rintro ⟨h1, h2⟩
      exact ⟨m, h1, q, h2, rfl, rfl⟩
  exact ⟨hmem, fun s p m h1 h2 => (hmem s p m p).mpr ⟨h1, h2⟩⟩

/-- Witness for the amended C6 at a concrete input: the co-star pair `(5, 1)`
of person 0 in the example store. -/
theorem claim_C6_witness : ((5 : ℕ), (1 : ℕ)) ∈ neighborsForPerson exS 0 :=
  (claim_C6.1 exS 0 5 1).mpr ⟨by decide, by decide⟩

namespace Deg

theorem walkN_zero (s : Store) (p q : ℕ) : walkN s 0 p q ↔ p = q := by rw [walkN]

theorem walkN_succ (s : Store) (n p q : ℕ) :
    walkN s (n + 1) p q ↔
      ∃ m ∈ s.peopleMovies p, ∃ r ∈ s.movieStars m, walkN s n r q := by
  rw [walkN]

/-- A walk of length `n + 1` decomposes at its last edge. -/
theorem walkN_snoc (s : Store) :
    ∀ (n : ℕ) (p q : ℕ), walkN s (n + 1) p q ↔
      ∃ r, walkN s n p r ∧ ∃ m ∈ s.peopleMovies r, q ∈ s.movieStars m := by
  intro n
  induction n with
  | zero =>
    intro p q
    rw [walkN_succ]
    constructor
    · rintro ⟨m, hm, r, hr, hw⟩
      rw [walkN_zero] at hw
      subst hw
      exact ⟨p, (walkN_zero s p p).mpr rfl, m, hm, hr⟩
    · rintro ⟨r, hw, m, hm, hq⟩
      rw [walkN_zero] at hw
      subst hw
      exact ⟨m, hm, q, hq, (walkN_zero s q q).mpr rfl⟩
  | succ n ih =>
    intro p q
    rw [walkN_succ]
    constructor
    · rintro ⟨m, hm, r, hr, hw⟩
      obtain ⟨r', hw', m', hm', hq'⟩ := (ih r q).mp hw
      exact ⟨r', (walkN_succ s n p r').mpr ⟨m, hm, r, hr, hw'⟩, m', hm', hq'⟩
    · rintro ⟨r', hw', m', hm', hq'⟩
      obtain ⟨m, hm, r, hr, hw⟩ := (walkN_succ s n p r').mp hw'
      exact ⟨m, hm, r, hr, (ih r q).mpr ⟨r', hw, m', hm', hq'⟩⟩

theorem ValidNode.walk {s : Store} {source : ℕ} :
    ∀ {n : SNode}, ValidNode s source n →
      walkN s (SNode.depth n) source (SNode.state n) := by
  intro n h
  induction h with
  | root => exact (walkN_zero s source source).mpr rfl
  | child p m q _ hm hq ih =>
    exact (walkN_snoc s _ source q).mpr ⟨SNode.state p, ih, m, hm, hq⟩

theorem chain2_length : ∀ n : SNode, (chain2 n).length = SNode.depth n := by
  intro n
  induction n with
  | root s => rfl
  | child s a p ih => simp [chain2, SNode.depth, ih]

theorem validHops_append (s : Store) :
    ∀ (l1 : Path) (a mid : ℕ) (l2 : Path) (tgt : ℕ),
      validHops s a l1 mid → validHops s mid l2 tgt →
      validHops s a (l1 ++ l2) tgt := by
  intro l1
  induction l1 with
  | nil =>
    intro a mid l2 tgt h1 h2
    have : a = mid := h1
    subst this
    exact h2
  | cons x l1 ih =>
    intro a mid l2 tgt h1 h2
    obtain ⟨m, hx1, ha, hq, hrest⟩ := h1
    exact ⟨m, hx1, ha, hq, ih _ _ _ _ hrest h2⟩

theorem validHops_chain2 {s : Store} {source : ℕ} (hwf : WF s) :
    ∀ {n : SNode}, ValidNode s source n →
      validHops s source ((chain2 n).reverse) (SNode.state n) := by
  intro n h
  induction h with
  | root => exact rfl
  | child p m q hp hm hq ih =>
    show validHops s source (((some m, q) :: chain2 p).reverse) q
    rw [List.reverse_cons]
    refine validHops_append s _ _ (SNode.state p) _ _ ih ?_
    exact ⟨m, rfl, (hwf.1 (SNode.state p) m).mp hm, hq, rfl⟩

/-- The persons visited so far: explored ones plus the frontier's states. -/
def Vset (ep : Finset ℕ) (fr : List SNode) : Finset ℕ :=
  ep ∪ (fr.map SNode.state).toFinset

theorem mem_Vset {ep : Finset ℕ} {fr : List SNode} {q : ℕ} :
    q ∈ Vset ep fr ↔ q ∈ ep ∨ ∃ n ∈ fr, SNode.state n = q := by
  unfold Vset
  simp [List.mem_map]

theorem Vset_append (ep : Finset ℕ) (fr cs : List SNode) :
    Vset ep (fr ++ cs) = Vset ep fr ∪ (cs.map SNode.state).toFinset := by
  unfold Vset
  ext q
  simp [List.mem_map, or_assoc]

theorem Vset_mono_append {ep : Finset ℕ} {fr : List SNode} (cs : List SNode) :
    Vset ep fr ⊆ Vset ep (fr ++ cs) := by
  rw [Vset_append]
  exact Finset.subset_union_left

theorem Vset_skip {ep : Finset ℕ} {node : SNode} {rest : List SNode}
    (h : SNode.state node ∈ ep) : Vset ep (node :: rest) = Vset ep rest := by
  ext q
  rw [mem_Vset, mem_Vset]
  constructor
  · rintro (hq | ⟨n, hn, hs⟩)
    · exact Or.inl hq
    · rcases List.mem_cons.mp hn with h' | hn'
      · subst h'
        exact Or.inl (hs ▸ h)
      · exact Or.inr ⟨n, hn', hs⟩
  · rintro (hq | ⟨n, hn, hs⟩)
    · exact Or.inl hq
    · exact Or.inr ⟨n, List.mem_cons_of_mem _ hn, hs⟩

theorem Vset_expand {ep : Finset ℕ} {node : SNode} {rest : List SNode} :
    Vset (insert (SNode.state node) ep) rest = Vset ep (node :: rest) := by
  ext q
  rw [mem_Vset, mem_Vset, Finset.mem_insert]
  constructor
  · rintro ((h | hq) | ⟨n, hn, hs⟩)
    · exact Or.inr ⟨node, List.mem_cons_self _ _, h.symm⟩
    · exact Or.inl hq
    · exact Or.inr ⟨n, List.mem_cons_of_mem _ hn, hs⟩
  · rintro (hq | ⟨n, hn, hs⟩)
    · exact Or.inl (Or.inr hq)
    · rcases List.mem_cons.mp hn with h' | hn'
      · subst h'
        exact Or.inl (Or.inl hs.symm)
      · exact Or.inr ⟨n, hn', hs⟩

end Deg

namespace Deg

/-- Shape of the enqueue fold: it appends a block of fresh children, each
satisfying the enqueue conditions against the initial frontier, with
pairwise-distinct states. -/
theorem enqueueAll_shape (node : SNode) (ep em : Finset ℕ) :
    ∀ (L : List (ℕ × ℕ)) (fr : List SNode),
      ∃ cs, enqueueAll node ep em L fr = fr ++ cs ∧
        (∀ c ∈ cs, ∃ m q, c = SNode.child q m node ∧ (m, q) ∈ L ∧
          q ∉ ep ∧ m ∉ em ∧ ¬ containsState fr q) ∧
        (cs.map SNode.state).Nodup := by
  intro L
  induction L with
  | nil =>
    intro fr
    exact ⟨[], by simp [enqueueAll], by simp, by simp⟩
  | cons x L ih =>
    intro fr
    obtain ⟨m, q⟩ := x
    by_cases hc : q ∉ ep ∧ m ∉ em ∧ ¬ containsState fr q
    · have hstep : enqueueAll node ep em ((m, q) :: L) fr
          = enqueueAll node ep em L (fr ++ [SNode.child q m node]) := by
        show enqueueAll node ep em L
            (if q ∉ ep ∧ m ∉ em ∧ ¬ containsState fr q
              then fr ++ [SNode.child q m node] else fr) = _
        rw [if_pos hc]
      obtain ⟨cs', h1, h2, h3⟩ := ih (fr ++ [SNode.child q m node])
      refine ⟨SNode.child q m node :: cs', ?_, ?_, ?_⟩
      · rw [hstep, h1, List.append_assoc]
        rfl
      · intro c hcmem
        rcases List.mem_cons.mp hcmem with h' | hcm
        · subst h'
          exact ⟨m, q, rfl, List.mem_cons_self _ _, hc.1, hc.2.1, hc.2.2⟩
        · obtain ⟨m', q', he, hL, hq1, hq2, hq3⟩ := h2 c hcm
          refine ⟨m', q', he, List.mem_cons_of_mem _ hL, hq1, hq2, ?_⟩
          rintro ⟨n, hn, hs⟩
          exact hq3 ⟨n, List.mem_append_left _ hn, hs⟩
      · rw [List.map_cons, List.nodup_cons]
        refine ⟨?_, h3⟩
        intro hq
        obtain ⟨c, hcm, hst⟩ := List.mem_map.mp hq
        obtain ⟨m', q', he, -, -, -, hq3⟩ := h2 c hcm
        apply hq3
        refine ⟨SNode.child q m node, List.mem_append_right _ (List.mem_cons_self _ _), ?_⟩
        subst he
        exact hst.symm
    · have hstep : enqueueAll node ep em ((m, q) :: L) fr
          = enqueueAll node ep em L fr := by
        show enqueueAll node ep em L
            (if q ∉ ep ∧ m ∉ em ∧ ¬ containsState fr q
              then fr ++ [SNode.child q m node] else fr) = _
        rw [if_neg hc]
      obtain ⟨cs, h1, h2, h3⟩ := ih fr
      refine ⟨cs, hstep ▸ h1, ?_, h3⟩
      intro c hcm
      obtain ⟨m', q', he, hL, hq1, hq2, hq3⟩ := h2 c hcm
      exact ⟨m', q', he, List.mem_cons_of_mem _ hL, hq1, hq2, hq3⟩

/-- Coverage of the enqueue fold: after the fold, the person of every
processed pair is visited (given that stars of explored movies already
were). -/
theorem enqueueAll_cover (s : Store) (node : SNode) (ep em : Finset ℕ) :
    ∀ (L : List (ℕ × ℕ)) (fr : List SNode),
      (∀ x ∈ L, x.2 ∈ s.movieStars x.1) →
      (∀ m ∈ em, ∀ q ∈ s.movieStars m, q ∈ Vset ep fr) →
      ∀ x ∈ L, x.2 ∈ Vset ep (enqueueAll node ep em L fr) := by
  intro L
  induction L with
  | nil => intro fr _ _ x hx; cases hx
  | cons y L ih =>
    intro fr hstars hem x hx
    obtain ⟨m, q⟩ := y
    by_cases hc : q ∉ ep ∧ m ∉ em ∧ ¬ containsState fr q
    · have hstep : enqueueAll node ep em ((m, q) :: L) fr
          = enqueueAll node ep em L (fr ++ [SNode.child q m node]) := by
        show enqueueAll node ep em L
            (if q ∉ ep ∧ m ∉ em ∧ ¬ containsState fr q
              then fr ++ [SNode.child q m node] else fr) = _
        rw [if_pos hc]
      rw [hstep]
      rcases List.mem_cons.mp hx with h' | hxm
      · subst h'
        obtain ⟨cs, hcs1, -, -⟩ :=
          enqueueAll_shape node ep em L (fr ++ [SNode.child q m node])
        rw [hcs1]
        apply Vset_mono_append
        rw [mem_Vset]
        exact Or.inr ⟨SNode.child q m node,
          List.mem_append_right _ (List.mem_cons_self _ _), rfl⟩
      · exact ih (fr ++ [SNode.child q m node])
          (fun z hz => hstars z (List.mem_cons_of_mem _ hz))
          (fun m' hm' q' hq' => Vset_mono_append _ (hem m' hm' q' hq'))
          x hxm
    · have hstep : enqueueAll node ep em ((m, q) :: L) fr
          = enqueueAll node ep em L fr := by
        show enqueueAll node ep em L
            (if q ∉ ep ∧ m ∉ em ∧ ¬ containsState fr q
              then fr ++ [SNode.child q m node] else fr) = _
        rw [if_neg hc]
      rw [hstep]
      obtain ⟨cs, hcs1, -, -⟩ := enqueueAll_shape node ep em L fr
      rcases List.mem_cons.mp hx with h' | hxm
      · subst h'
        have hor : q ∈ ep ∨ m ∈ em ∨ containsState fr q := by
          by_contra hno
          push_neg at hno
          exact hc ⟨hno.1, hno.2.1, hno.2.2⟩
        rw [hcs1]
        rcases hor with h | h | h
        · rw [mem_Vset]
          exact Or.inl h
        · exact Vset_mono_append _
            (hem m h q (hstars (m, q) (List.mem_cons_self _ _)))
        · obtain ⟨n, hn, hs⟩ := h
          apply Vset_mono_append
          rw [mem_Vset]
          exact Or.inr ⟨n, hn, hs⟩
      · exact ih fr (fun z hz => hstars z (List.mem_cons_of_mem _ hz)) hem x hxm

end Deg

namespace Deg

/-- The invariants of the search loop needed for path validity: the target
has never been visited, stars of explored movies and of frontier edges are
visited, and every frontier node is a valid source-rooted chain. -/
structure InvL (s : Store) (source target : ℕ) (ep em : Finset ℕ)
    (fr : List SNode) : Prop where
  tgt_ep : target ∉ ep
  tgt_fr : ∀ n ∈ fr, SNode.state n ≠ target
  em_stars : ∀ m ∈ em, ∀ q ∈ s.movieStars m, q ∈ Vset ep fr
  fr_stars : ∀ n ∈ fr, ∀ m, SNode.action n = some m →
    ∀ q ∈ s.movieStars m, q ∈ Vset ep fr
  fr_valid : ∀ n ∈ fr, ValidNode s source n

theorem InvL_init (s : Store) (source target : ℕ) (hst : source ≠ target) :
    InvL s source target ∅ ∅ [SNode.root source] where
  tgt_ep := Finset.not_mem_empty target
  tgt_fr := by
    intro n hn
    rcases List.mem_cons.mp hn with h | h
    · subst h; exact hst
    · cases h
  em_stars := by intro m hm; exact absurd hm (Finset.not_mem_empty m)
  fr_stars := by
    intro n hn m hm
    rcases List.mem_cons.mp hn with h | h
    · subst h; cases hm
    · cases h
  fr_valid := by
    intro n hn
    rcases List.mem_cons.mp hn with h | h
    · subst h; exact ValidNode.root
    · cases h

theorem InvL_skip {s : Store} {source target : ℕ} {ep em : Finset ℕ}
    {node : SNode} {rest : List SNode}
    (hI : InvL s source target ep em (node :: rest))
    (hsk : SNode.state node ∈ ep) : InvL s source target ep em rest where
  tgt_ep := hI.tgt_ep
  tgt_fr := fun n hn => hI.tgt_fr n (List.mem_cons_of_mem _ hn)
  em_stars := fun m hm q hq => (Vset_skip hsk) ▸ hI.em_stars m hm q hq
  fr_stars := fun n hn m hm q hq =>
    (Vset_skip hsk) ▸ hI.fr_stars n (List.mem_cons_of_mem _ hn) m hm q hq
  fr_valid := fun n hn => hI.fr_valid n (List.mem_cons_of_mem _ hn)

/-- Preservation of the light invariant across a full expansion step: the
current person is marked explored, its incoming movie (if any, and not
containing the target) is marked explored, and all unexplored co-star pairs
are enqueued; requires that no neighbor pair hits the target. -/
theorem InvL_expand {s : Store} {source target : ℕ} {ep em em' : Finset ℕ}
    {node : SNode} {rest : List SNode}
    (hI : InvL s source target ep em (node :: rest))
    (hem' : (node.action = none ∧ em' = em) ∨
      (∃ m, node.action = some m ∧ em' = insert m em ∧ target ∉ s.movieStars m))
    (hfind : ∀ x ∈ neighborsList s node.state, x.2 ≠ target) :
    InvL s source target (insert node.state ep) em'
      (enqueueAll node (insert node.state ep) em'
        (neighborsList s node.state) rest) := by
  set ep' := insert node.state ep with hep'
  set L := neighborsList s node.state with hL
  obtain ⟨cs, hcs1, hcs2, -⟩ := enqueueAll_shape node ep' em' L rest
  have hLstars : ∀ x ∈ L, x.2 ∈ s.movieStars x.1 := fun x hx =>
    ((mem_neighborsList s node.state x).mp hx).2
  have hLmovies : ∀ x ∈ L, x.1 ∈ s.peopleMovies node.state := fun x hx =>
    ((mem_neighborsList s node.state x).mp hx).1
  have hem'_rest : ∀ m ∈ em', ∀ q ∈ s.movieStars m, q ∈ Vset ep' rest := by
    intro m hm q hq
    rcases hem' with ⟨-, he⟩ | ⟨m0, ha0, he, -⟩
    · subst he
      exact Vset_expand ▸ hI.em_stars m hm q hq
    · subst he
      rcases Finset.mem_insert.mp hm with h | h
      · subst h
        exact Vset_expand ▸
          hI.fr_stars node (List.mem_cons_self _ _) m ha0 q hq
      · exact Vset_expand ▸ hI.em_stars m h q hq
  have hcover : ∀ x ∈ L, x.2 ∈ Vset ep' (enqueueAll node ep' em' L rest) :=
    enqueueAll_cover s node ep' em' L rest hLstars hem'_rest
  have hmono : Vset ep' rest ⊆ Vset ep' (enqueueAll node ep' em' L rest) := by
    rw [hcs1]
    exact Vset_mono_append cs
  refine ⟨?_, ?_, ?_, ?_, ?_⟩
  · rw [Finset.mem_insert]
    rintro (h | h)
    · exact hI.tgt_fr node (List.mem_cons_self _ _) h.symm
    · exact hI.tgt_ep h
  · intro n hn
    rw [hcs1] at hn
    rcases List.mem_append.mp hn with hn | hn
    · exact hI.tgt_fr n (List.mem_cons_of_mem _ hn)
    · obtain ⟨m, q, he, hLmem, -, -, -⟩ := hcs2 n hn
      subst he
      exact hfind (m, q) hLmem
  · intro m hm q hq
    exact hmono (hem'_rest m hm q hq)
  · intro n hn m hm q hq
    rw [hcs1] at hn
    rcases List.mem_append.mp hn with hn | hn
    · exact hmono (Vset_expand ▸
        hI.fr_stars n (List.mem_cons_of_mem _ hn) m hm q hq)
    · obtain ⟨m0, q0, he, hLmem, -, -, -⟩ := hcs2 n hn
      subst he
      have hm0 : m0 = m := by
        have : SNode.action (SNode.child q0 m0 node) = some m0 := rfl
        rw [hm] at this
        exact (Option.some.inj this).symm
      have hLmem' : (m, q0) ∈ L := hm0 ▸ hLmem
      have : (m, q) ∈ L := (mem_neighborsList s node.state (m, q)).mpr
        ⟨hLmovies (m, q0) hLmem', hq⟩
      exact hcover (m, q) this
  · intro n hn
    rw [hcs1] at hn
    rcases List.mem_append.mp hn with hn | hn
    · exact hI.fr_valid n (List.mem_cons_of_mem _ hn)
    · obtain ⟨m, q, he, hLmem, -, -, -⟩ := hcs2 n hn
      subst he
      exact ValidNode.child node m q (hI.fr_valid node (List.mem_cons_self _ _))
        (hLmovies (m, q) hLmem) (hLstars (m, q) hLmem)

theorem spLoop_nil (s : Store) (target fuel : ℕ) (ep em : Finset ℕ) :
    spLoop s target (fuel + 1) ep em [] = .ok none := by
  simp only [spLoop]

theorem spLoop_cons_skip {s : Store} {target fuel : ℕ} {ep em : Finset ℕ}
    {node : SNode} {rest : List SNode}
    (h : SNode.state node ∈ ep ∧ movieSeen em node.action) :
    spLoop s target (fuel + 1) ep em (node :: rest)
      = spLoop s target fuel ep em rest := by
  simp only [spLoop]
  rw [if_pos h]

theorem spLoop_cons_some {s : Store} {target fuel : ℕ} {ep em : Finset ℕ}
    {node : SNode} {rest : List SNode} {m : ℕ}
    (hsk : ¬ (SNode.state node ∈ ep ∧ movieSeen em node.action))
    (ha : node.action = some m) :
    spLoop s target (fuel + 1) ep em (node :: rest)
      = if target ∈ s.movieStars m then .ok (some ((chain1 node).reverse))
        else spAfter s target fuel (insert node.state ep) (insert m em) node rest := by
  simp only [spLoop]
  rw [if_neg hsk, ha]

theorem spLoop_cons_none {s : Store} {target fuel : ℕ} {ep em : Finset ℕ}
    {node : SNode} {rest : List SNode}
    (hsk : ¬ (SNode.state node ∈ ep ∧ movieSeen em node.action))
    (ha : node.action = none) :
    spLoop s target (fuel + 1) ep em (node :: rest)
      = spAfter s target fuel (insert node.state ep) em node rest := by
  simp only [spLoop]
  rw [if_neg hsk, ha]

theorem spAfter_some {s : Store} {target fuel : ℕ} {ep' em' : Finset ℕ}
    {node : SNode} {rest : List SNode} {mp : ℕ × ℕ}
    (hf : (neighborsList s node.state).find?
      (fun mp => decide (mp.2 = target)) = some mp) :
    spAfter s target fuel ep' em' node rest
      = .ok (some (((some mp.1, mp.2) :: chain2 node)).reverse) := by
  simp only [spAfter]
  rw [hf]

theorem spAfter_none {s : Store} {target fuel : ℕ} {ep' em' : Finset ℕ}
    {node : SNode} {rest : List SNode}
    (hf : (neighborsList s node.state).find?
      (fun mp => decide (mp.2 = target)) = none) :
    spAfter s target fuel ep' em' node rest
      = spLoop s target fuel ep' em'
          (enqueueAll node ep' em' (neighborsList s node.state) rest) := by
  simp only [spAfter]
  rw [hf]

/-- Whatever path the loop returns is a valid alternating movie path from
the source to the target, under the light invariant. -/
theorem spLoop_valid (s : Store) (source target : ℕ) (hwf : WF s) :
    ∀ (fuel : ℕ) (ep em : Finset ℕ) (fr : List SNode) (pth : Path),
      InvL s source target ep em fr →
      spLoop s target fuel ep em fr = .ok (some pth) →
      validHops s source pth target := by
  intro fuel
  induction fuel with
  | zero =>
    intro ep em fr pth _ h
    exact absurd h (by rw [spLoop]; exact fun h' => Except.noConfusion h')
  | succ fuel ih =>
    intro ep em fr pth hI h
    match fr with
    | [] =>
      rw [spLoop_nil] at h
      exact absurd (Except.ok.inj h) (fun h' => Option.noConfusion h')
    | node :: rest =>
      by_cases hsk : SNode.state node ∈ ep ∧ movieSeen em node.action
      · rw [spLoop_cons_skip hsk] at h
        exact ih ep em rest pth (InvL_skip hI hsk.1) h
      · have hnotV : target ∉ Vset ep (node :: rest) := by
          rw [mem_Vset]
          rintro (hc | ⟨n, hn, hs⟩)
          · exact hI.tgt_ep hc
          · exact hI.tgt_fr n hn hs
        have hafter : ∀ em' : Finset ℕ,
            ((node.action = none ∧ em' = em) ∨
              (∃ m, node.action = some m ∧ em' = insert m em ∧
                target ∉ s.movieStars m)) →
            spAfter s target fuel (insert node.state ep) em' node rest
              = .ok (some pth) →
            validHops s source pth target := by
          intro em' hem' hA
          cases hf : (neighborsList s node.state).find?
              (fun mp => decide (mp.2 = target)) with
          | some mp =>
            rw [spAfter_some hf] at hA
            have hpth : pth = ((some mp.1, mp.2) :: chain2 node).reverse :=
              (Option.some.inj (Except.ok.inj hA)).symm
            have hmem := List.mem_of_find?_eq_some hf
            have hpred := List.find?_some hf
            have htgt : mp.2 = target := of_decide_eq_true hpred
            obtain ⟨hm1, hm2⟩ := (mem_neighborsList s node.state mp).mp hmem
            subst hpth
            rw [List.reverse_cons]
            refine validHops_append s _ _ (SNode.state node) _ _
              (validHops_chain2 hwf (hI.fr_valid node (List.mem_cons_self _ _))) ?_
            exact ⟨mp.1, rfl, (hwf.1 (SNode.state node) mp.1).mp hm1, hm2, htgt⟩
          | none =>
            rw [spAfter_none hf] at hA
            have hfind : ∀ x ∈ neighborsList s node.state, x.2 ≠ target := by
              intro x hx
              have := List.find?_eq_none.mp hf x hx
              simpa using this
            exact ih _ _ _ pth (InvL_expand hI hem' hfind) hA
        cases ha : node.action with
        | some m =>
          rw [spLoop_cons_some hsk ha] at h
          by_cases hb1 : target ∈ s.movieStars m
          · exfalso
            exact hnotV
              (hI.fr_stars node (List.mem_cons_self _ _) m ha target hb1)
          · rw [if_neg hb1] at h
            exact hafter (insert m em) (Or.inr ⟨m, ha, rfl, hb1⟩) h
        | none =>
          rw [spLoop_cons_none hsk ha] at h
          exact hafter em (Or.inl ⟨ha, rfl⟩) h

end Deg

/-- Claim C2: every non-empty sequence returned by `shortest_path` is a
valid alternating path — each hop's movie contains the previous person (the
source for the first hop) and the hop's person among its stars, and the last
person is exactly the target. -/
theorem claim_C2 (s : Store) (source target : ℕ) (pth : Path) (hwf : WF s)
    (h : shortestPath s source target = .ok (some pth)) (hne : pth ≠ []) :
    validHops s source pth target := by
  unfold shortestPath at h
  by_cases hst : source = target
  · rw [if_pos hst] at h
    exact absurd (Option.some.inj (Except.ok.inj h)).symm hne
  · rw [if_neg hst] at h
    by_cases hmv : s.peopleMovies source = ∅
    · rw [if_pos hmv] at h
      exact absurd h (fun h' => Except.noConfusion h')
    · rw [if_neg hmv] at h
      exact spLoop_valid s source target hwf _ ∅ ∅ [SNode.root source] pth
        (InvL_init s source target hst) h

/-- Witness for C2: in the example store, the path returned from person 0 to
person 1 is the single hop through movie 5, and it is valid. -/
theorem claim_C2_witness : validHops exS 0 [(some 5, 1)] 1 := by
  apply claim_C2 exS 0 1 [(some 5, 1)] wf_exS ?_ (List.cons_ne_nil _ _)
  show shortestPath exS 0 1 = .ok (some [(some 5, 1)])
  unfold shortestPath
  rw [if_neg (by decide), if_neg (by decide)]
  show spLoop exS 1 (5 + 1) ∅ ∅ [SNode.root 0] = _
  have hsk0 : ¬ (SNode.state (SNode.root 0) ∈ (∅ : Finset ℕ) ∧
      movieSeen ∅ (SNode.action (SNode.root 0))) := by decide
  have hf0 : (neighborsList exS (SNode.state (SNode.root 0))).find?
      (fun mp => decide (mp.2 = 1)) = some (5, 1) := by rfl
  rw [spLoop_cons_none hsk0 rfl, spAfter_some hf0]
  rfl

namespace Deg

/-- BFS completeness at base level `d`: persons strictly closer than `d` are
explored, persons at distance exactly `d` are at least visited. -/
def Complete (s : Store) (source : ℕ) (ep Vs : Finset ℕ) (d : ℕ) : Prop :=
  (∀ p k, k < d → walkN s k source p → p ∈ ep) ∧
  (∀ p, walkN s d source p → p ∈ Vs)

/-- The full loop invariant: the light one plus visitation of the source,
closure of the explored region, minimal depths, domain bounds, and the
two-level frontier structure with completeness at the base level. -/
structure Inv (s : Store) (source target : ℕ) (ep em : Finset ℕ)
    (fr : List SNode) extends InvL s source target ep em fr : Prop where
  src_mem : source ∈ Vset ep fr
  ep_no_costar : ∀ p ∈ ep, ∀ m ∈ s.peopleMovies p, target ∉ s.movieStars m
  ep_closed : ∀ p ∈ ep, ∀ m ∈ s.peopleMovies p, ∀ q ∈ s.movieStars m,
    q ∈ Vset ep fr
  fr_min : ∀ n ∈ fr, ∀ k, k < SNode.depth n → ¬ walkN s k source (SNode.state n)
  ep_dom : ep ⊆ s.pdom
  fr_dom : ∀ n ∈ fr, SNode.state n ∈ s.pdom
  levels : fr = [] ∨ ∃ d lo hi, fr = lo ++ hi ∧ lo ≠ [] ∧
    (∀ n ∈ lo, SNode.depth n = d) ∧ (∀ n ∈ hi, SNode.depth n = d + 1) ∧
    Complete s source ep (Vset ep fr) d

/-- The loop measure: frontier length plus twice the unvisited persons. -/
def spMeasure (s : Store) (ep : Finset ℕ) (fr : List SNode) : ℕ :=
  fr.length + 2 * ((s.pdom \ Vset ep fr).card)

theorem Inv_init (s : Store) (source target : ℕ) (hst : source ≠ target)
    (hsrc : source ∈ s.pdom) :
    Inv s source target ∅ ∅ [SNode.root source] where
  toInvL := InvL_init s source target hst
  src_mem := mem_Vset.mpr (Or.inr ⟨SNode.root source, List.mem_cons_self _ _, rfl⟩)
  ep_no_costar := fun p hp => absurd hp (Finset.not_mem_empty p)
  ep_closed := fun p hp => absurd hp (Finset.not_mem_empty p)
  fr_min := by
    intro n hn k hk
    rcases List.mem_cons.mp hn with h | h
    · subst h
      exact absurd hk (by simp [SNode.depth])
    · cases h
  ep_dom := Finset.empty_subset _
  fr_dom := by
    intro n hn
    rcases List.mem_cons.mp hn with h | h
    · subst h; exact hsrc
    · cases h
  levels := by
    refine Or.inr ⟨0, [SNode.root source], [], rfl, List.cons_ne_nil _ _, ?_, ?_, ?_, ?_⟩
    · intro n hn
      rcases List.mem_cons.mp hn with h | h
      · subst h; rfl
      · cases h
    · intro n hn; cases hn
    · intro p k hk; omega
    · intro p hw
      rw [walkN_zero] at hw
      subst hw
      exact mem_Vset.mpr (Or.inr ⟨SNode.root source, List.mem_cons_self _ _, rfl⟩)

theorem Inv_skip {s : Store} {source target : ℕ} {ep em : Finset ℕ}
    {node : SNode} {rest : List SNode}
    (hI : Inv s source target ep em (node :: rest))
    (hsk : SNode.state node ∈ ep) : Inv s source target ep em rest where
  toInvL := InvL_skip hI.toInvL hsk
  src_mem := (Vset_skip hsk) ▸ hI.src_mem
  ep_no_costar := hI.ep_no_costar
  ep_closed := fun p hp m hm q hq =>
    (Vset_skip hsk) ▸ hI.ep_closed p hp m hm q hq
  fr_min := fun n hn => hI.fr_min n (List.mem_cons_of_mem _ hn)
  ep_dom := hI.ep_dom
  fr_dom := fun n hn => hI.fr_dom n (List.mem_cons_of_mem _ hn)
  levels := by
    rcases hI.levels with h | ⟨d, lo, hi, hsplit, hlo, hlod, hhid, hcomp⟩
    · cases h
    · cases lo with
      | nil => exact absurd rfl hlo
      | cons node0 lo' =>
        rw [List.cons_append] at hsplit
        injection hsplit with h1 h2
        subst h1
        cases lo' with
        | cons x lo'' =>
          refine Or.inr ⟨d, x :: lo'', hi, h2, List.cons_ne_nil _ _,
            (fun n hn => hlod n (List.mem_cons_of_mem _ hn)), hhid, hcomp.1, ?_⟩
          intro p hw
          exact (Vset_skip hsk) ▸ hcomp.2 p hw
        | nil =>
          rw [List.nil_append] at h2
          cases hi with
          | nil => exact Or.inl h2
          | cons y hi' =>
            refine Or.inr ⟨d + 1, y :: hi', [], by rw [h2, List.append_nil],
              List.cons_ne_nil _ _, hhid, ?_, ?_, ?_⟩
            · intro n hn; cases hn
            · intro p k hk hw
              rcases Nat.lt_succ_iff_lt_or_eq.mp hk with hk' | hk'
              · exact hcomp.1 p k hk' hw
              · subst hk'
                have hp := hcomp.2 p hw
                rcases mem_Vset.mp hp with h' | ⟨n, hn, hs⟩
                · exact h'
                · rcases List.mem_cons.mp hn with h'' | h''
                  · subst h''
                    exact hs ▸ hsk
                  · exfalso
                    have hdep := hhid n (h2 ▸ h'')
                    have := hI.fr_min n (List.mem_cons_of_mem _ h'') k
                    rw [hdep] at this
                    exact this (by omega) (hs ▸ hw)
            · intro p hw
              rw [walkN_snoc] at hw
              obtain ⟨r, hwr, m, hm, hq⟩ := hw
              have hr := hcomp.2 r hwr
              have hgoal : p ∈ Vset ep (node :: rest) := by
                rcases mem_Vset.mp hr with h' | ⟨n, hn, hs⟩
                · exact hI.ep_closed r h' m hm p hq
                · rcases List.mem_cons.mp hn with h'' | h''
                  · subst h''
                    exact hI.ep_closed r (hs ▸ hsk) m hm p hq
                  · exfalso
                    have hdep := hhid n (h2 ▸ h'')
                    have := hI.fr_min n (List.mem_cons_of_mem _ h'') d
                    rw [hdep] at this
                    exact this (by omega) (hs ▸ hwr)
              rw [Vset_skip hsk] at hgoal
              exact hgoal

theorem spMeasure_skip (s : Store) (ep : Finset ℕ) (node : SNode)
    (rest : List SNode) (hsk : SNode.state node ∈ ep) :
    spMeasure s ep rest < spMeasure s ep (node :: rest) := by
  unfold spMeasure
  rw [Vset_skip hsk]
  simp

end Deg

namespace Deg

theorem Inv_expand {s : Store} {source target : ℕ} {ep em em' : Finset ℕ}
    {node : SNode} {rest : List SNode} (hwf : WF s)
    (hI : Inv s source target ep em (node :: rest))
    (hem' : (node.action = none ∧ em' = em) ∨
      (∃ m, node.action = some m ∧ em' = insert m em ∧ target ∉ s.movieStars m))
    (hfind : ∀ x ∈ neighborsList s node.state, x.2 ≠ target) :
    Inv s source target (insert node.state ep) em'
      (enqueueAll node (insert node.state ep) em'
        (neighborsList s node.state) rest) := by
  have hL : ∀ x ∈ neighborsList s node.state,
      x.1 ∈ s.peopleMovies node.state ∧ x.2 ∈ s.movieStars x.1 :=
    fun x hx => (mem_neighborsList s node.state x).mp hx
  obtain ⟨cs, hcs1, hcs2, hcs3⟩ := enqueueAll_shape node (insert node.state ep)
    em' (neighborsList s node.state) rest
  have hem'_rest : ∀ m ∈ em', ∀ q ∈ s.movieStars m,
      q ∈ Vset (insert node.state ep) rest := by
    intro m hm q hq
    rcases hem' with ⟨-, he⟩ | ⟨m0, ha0, he, -⟩
    · subst he
      exact Vset_expand ▸ hI.em_stars m hm q hq
    · subst he
      rcases Finset.mem_insert.mp hm with h | h
      · subst h
        exact Vset_expand ▸
          hI.fr_stars node (List.mem_cons_self _ _) m ha0 q hq
      · exact Vset_expand ▸ hI.em_stars m h q hq
  have hcover : ∀ x ∈ neighborsList s node.state,
      x.2 ∈ Vset (insert node.state ep)
        (enqueueAll node (insert node.state ep) em'
          (neighborsList s node.state) rest) :=
    enqueueAll_cover s node (insert node.state ep) em' _ rest
      (fun x hx => (hL x hx).2) hem'_rest
  have hmono : Vset (insert node.state ep) rest ⊆
      Vset (insert node.state ep)
        (enqueueAll node (insert node.state ep) em'
          (neighborsList s node.state) rest) := by
    rw [hcs1]
    exact Vset_mono_append cs
  have hVold : Vset (insert node.state ep) rest = Vset ep (node :: rest) :=
    Vset_expand
  rcases hI.levels with hfr | ⟨d, lo, hi, hsplit, hlo, hlod, hhid, hcomp⟩
  · cases hfr
  obtain ⟨node0, lo', rfl⟩ : ∃ n l, lo = n :: l := by
    cases lo with
    | nil => exact absurd rfl hlo
    | cons a l => exact ⟨a, l, rfl⟩
  rw [List.cons_append] at hsplit
  injection hsplit with h1 h2
  subst h1
  have hdnode : SNode.depth node = d := hlod node (List.mem_cons_self _ _)
  have hcs_notint : ∀ c ∈ cs, SNode.state c ∉ Vset ep (node :: rest) := by
    intro c hc hmem
    obtain ⟨m, q, he, hLmem, hq1, hq2, hq3⟩ := hcs2 c hc
    subst he
    rcases mem_Vset.mp hmem with h' | ⟨n, hn, hs⟩
    · exact hq1 (Finset.mem_insert_of_mem h')
    · rcases List.mem_cons.mp hn with h'' | h''
      · subst h''
        exact hq1 (hs ▸ Finset.mem_insert_self _ _)
      · exact hq3 ⟨n, h'', hs⟩
  have hcs_depth : ∀ c ∈ cs, SNode.depth c = d + 1 := by
    intro c hc
    obtain ⟨m, q, he, -, -, -, -⟩ := hcs2 c hc
    subst he
    show SNode.depth node + 1 = d + 1
    rw [hdnode]
  have hcs_min : ∀ c ∈ cs, ∀ k, k < d + 1 →
      ¬ walkN s k source (SNode.state c) := by
    intro c hc k hk hw
    obtain ⟨m, q, he, hLmem, hq1, hq2, hq3⟩ := hcs2 c hc
    subst he
    rcases Nat.lt_succ_iff_lt_or_eq.mp hk with hk' | hk'
    · exact hq1 (Finset.mem_insert_of_mem (hcomp.1 q k hk' hw))
    · subst hk'
      exact hcs_notint _ hc (hcomp.2 q hw)
  refine ⟨InvL_expand hI.toInvL hem' hfind, ?_, ?_, ?_, ?_, ?_, ?_, ?_⟩
  · exact hmono (hVold ▸ hI.src_mem)
  · intro p hp m hm htgt
    rcases Finset.mem_insert.mp hp with h | h
    · subst h
      exact hfind (m, target)
        ((mem_neighborsList s node.state (m, target)).mpr ⟨hm, htgt⟩) rfl
    · exact hI.ep_no_costar p h m hm htgt
  · intro p hp m hm q hq
    rcases Finset.mem_insert.mp hp with h | h
    · subst h
      exact hcover (m, q)
        ((mem_neighborsList s (SNode.state node) (m, q)).mpr ⟨hm, hq⟩)
    · exact hmono (hVold ▸ hI.ep_closed p h m hm q hq)
  · intro n hn k hk
    rw [hcs1] at hn
    rcases List.mem_append.mp hn with hn | hn
    · exact hI.fr_min n (List.mem_cons_of_mem _ hn) k hk
    · exact hcs_min n hn k (by rw [← hcs_depth n hn]; exact hk)
  · rw [Finset.insert_subset_iff]
    exact ⟨hI.fr_dom node (List.mem_cons_self _ _), hI.ep_dom⟩
  · intro n hn
    rw [hcs1] at hn
    rcases List.mem_append.mp hn with hn | hn
    · exact hI.fr_dom n (List.mem_cons_of_mem _ hn)
    · obtain ⟨m, q, he, hLmem, -, -, -⟩ := hcs2 n hn
      subst he
      exact hwf.stars_sub_pdom (hL (m, q) hLmem).2
  · -- levels
    cases lo' with
    | cons x lo'' =>
      refine Or.inr ⟨d, x :: lo'', hi ++ cs, ?_, List.cons_ne_nil _ _, ?_, ?_, ?_, ?_⟩
      · rw [hcs1, h2, List.append_assoc]
      · intro n hn
        exact hlod n (List.mem_cons_of_mem _ hn)
      · intro n hn
        rcases List.mem_append.mp hn with hn | hn
        · exact hhid n hn
        · exact hcs_depth n hn
      · intro p k hk hw
        exact Finset.mem_insert_of_mem (hcomp.1 p k hk hw)
      · intro p hw
        exact hmono (hVold ▸ hcomp.2 p hw)
    | nil =>
      rw [List.nil_append] at h2
      have hfr' : enqueueAll node (insert node.state ep) em'
          (neighborsList s node.state) rest = hi ++ cs := by
        rw [hcs1, h2]
      cases hhc : hi ++ cs with
      | nil =>
        rw [hfr', hhc]
        exact Or.inl rfl
      | cons z zs =>
        refine Or.inr ⟨d + 1, hi ++ cs, [], by rw [hfr', List.append_nil], ?_, ?_, ?_, ?_, ?_⟩
        · rw [hhc]; exact List.cons_ne_nil _ _
        · intro n hn
          rcases List.mem_append.mp hn with hn | hn
          · exact hhid n hn
          · exact hcs_depth n hn
        · intro n hn; cases hn
        · intro p k hk hw
          rcases Nat.lt_succ_iff_lt_or_eq.mp hk with hk' | hk'
          · exact Finset.mem_insert_of_mem (hcomp.1 p k hk' hw)
          · subst hk'
            have hp := hcomp.2 p hw
            rcases mem_Vset.mp hp with h' | ⟨n, hn, hs⟩
            · exact Finset.mem_insert_of_mem h'
            · rcases List.mem_cons.mp hn with h'' | h''
              · subst h''
                exact hs ▸ Finset.mem_insert_self _ _
              · exfalso
                have hdep := hhid n (h2 ▸ h'')
                have := hI.fr_min n (List.mem_cons_of_mem _ h'') k
                rw [hdep] at this
                exact this (by omega) (hs ▸ hw)
        · intro p hw
          rw [walkN_snoc] at hw
          obtain ⟨r, hwr, m, hm, hq⟩ := hw
          have hr := hcomp.2 r hwr
          rcases mem_Vset.mp hr with h' | ⟨n, hn, hs⟩
          · exact hmono (hVold ▸ hI.ep_closed r h' m hm p hq)
          · rcases List.mem_cons.mp hn with h'' | h''
            · subst h''
              exact hcover (m, p)
                ((mem_neighborsList _ _ (m, p)).mpr ⟨hs.symm ▸ hm, hq⟩)
            · exfalso
              have hdep := hhid n (h2 ▸ h'')
              have := hI.fr_min n (List.mem_cons_of_mem _ h'') d
              rw [hdep] at this
              exact this (by omega) (hs ▸ hwr)

theorem spMeasure_expand (s : Store) (ep em' : Finset ℕ) (node : SNode)
    (rest : List SNode) (hwf : WF s) :
    spMeasure s (insert node.state ep)
      (enqueueAll node (insert node.state ep) em'
        (neighborsList s node.state) rest)
      < spMeasure s ep (node :: rest) := by
  obtain ⟨cs, hcs1, hcs2, hcs3⟩ := enqueueAll_shape node (insert node.state ep)
    em' (neighborsList s node.state) rest
  rw [hcs1]
  unfold spMeasure
  have hV' : Vset (insert node.state ep) (rest ++ cs)
      = Vset (insert node.state ep) rest ∪ (cs.map SNode.state).toFinset :=
    Vset_append _ _ _
  have hVold : Vset (insert node.state ep) rest = Vset ep (node :: rest) :=
    Vset_expand
  have hdisj : ∀ q ∈ (cs.map SNode.state).toFinset,
      q ∉ Vset (insert node.state ep) rest := by
    intro q hq hmem
    obtain ⟨c, hc, hqc⟩ := List.mem_map.mp (List.mem_toFinset.mp hq)
    obtain ⟨m, q', he, hLmem, hq1, hq2, hq3⟩ := hcs2 c hc
    have hqq : q = q' := by rw [← hqc, he]; rfl
    rcases mem_Vset.mp hmem with h' | ⟨n, hn, hs⟩
    · exact hq1 (hqq ▸ h')
    · exact hq3 ⟨n, hn, hs.trans hqq⟩
  have hSsub : (cs.map SNode.state).toFinset ⊆ s.pdom := by
    intro q hq
    obtain ⟨c, hc, hqc⟩ := List.mem_map.mp (List.mem_toFinset.mp hq)
    obtain ⟨m, q', he, hLmem, -, -, -⟩ := hcs2 c hc
    have hst := ((mem_neighborsList s (SNode.state node) (m, q')).mp hLmem).2
    have hqq : q = q' := by rw [← hqc, he]; rfl
    rw [hqq]
    exact hwf.stars_sub_pdom hst
  have hScard : (cs.map SNode.state).toFinset.card = cs.length := by
    rw [List.toFinset_card_of_nodup hcs3, List.length_map]
  have hSsub2 : (cs.map SNode.state).toFinset ⊆
      s.pdom \ Vset (insert node.state ep) rest := by
    intro q hq
    rw [Finset.mem_sdiff]
    exact ⟨hSsub hq, hdisj q hq⟩
  have hsdiff : s.pdom \ Vset (insert node.state ep) (rest ++ cs)
      = (s.pdom \ Vset (insert node.state ep) rest) \ (cs.map SNode.state).toFinset := by
    ext q
    rw [hV']
    simp only [Finset.mem_sdiff, Finset.mem_union]
    tauto
  rw [hsdiff, Finset.card_sdiff hSsub2, hScard, hVold]
  have hle : cs.length ≤ (s.pdom \ Vset ep (node :: rest)).card := by
    rw [← hScard, ← hVold]
    exact Finset.card_le_card hSsub2
  simp only [List.length_append, List.length_cons]
  omega

end Deg

namespace Deg

/-- Main correctness of the search loop: under the full invariant with
sufficient fuel, the loop returns a shortest path when the target is
reachable and the not-found value otherwise. -/
theorem spLoop_main (s : Store) (source target : ℕ) (hwf : WF s) :
    ∀ (fuel : ℕ) (ep em : Finset ℕ) (fr : List SNode),
      Inv s source target ep em fr →
      spMeasure s ep fr < fuel →
      ((∃ k, walkN s k source target) →
        ∃ pth : Path, spLoop s target fuel ep em fr = .ok (some pth) ∧
          walkN s pth.length source target ∧
          ∀ j, j < pth.length → ¬ walkN s j source target) ∧
      (¬ (∃ k, walkN s k source target) →
        spLoop s target fuel ep em fr = .ok none) := by
  intro fuel
  induction fuel with
  | zero => intro ep em fr _ hm; exact absurd hm (by omega)
  | succ fuel ih =>
    intro ep em fr hI hm
    match fr with
    | [] =>
      have hclosed : ∀ (k p : ℕ), walkN s k source p → p ∈ ep := by
        intro k
        induction k with
        | zero =>
          intro p hw
          rw [walkN_zero] at hw
          subst hw
          rcases mem_Vset.mp hI.src_mem with h | ⟨n, hn, -⟩
          · exact h
          · cases hn
        | succ k ihk =>
          intro p hw
          rw [walkN_snoc] at hw
          obtain ⟨r, hwr, m, hmv, hq⟩ := hw
          have := hI.ep_closed r (ihk r hwr) m hmv p hq
          rcases mem_Vset.mp this with h | ⟨n, hn, -⟩
          · exact h
          · cases hn
      refine ⟨?_, fun _ => spLoop_nil s target fuel ep em⟩
      rintro ⟨k, hw⟩
      exact absurd (hclosed k target hw) hI.tgt_ep
    | node :: rest =>
      by_cases hsk : SNode.state node ∈ ep ∧ movieSeen em node.action
      · have hmd := spMeasure_skip s ep node rest hsk.1
        have ih' := ih ep em rest (Inv_skip hI hsk.1) (by omega)
        refine ⟨?_, ?_⟩
        · intro hreach
          obtain ⟨pth, ha, hb, hc⟩ := ih'.1 hreach
          exact ⟨pth, by rw [spLoop_cons_skip hsk]; exact ha, hb, hc⟩
        · intro hreach
          rw [spLoop_cons_skip hsk]
          exact ih'.2 hreach
      · have hnotV : target ∉ Vset ep (node :: rest) := by
          rw [mem_Vset]
          rintro (hc | ⟨n, hn, hs⟩)
          · exact hI.tgt_ep hc
          · exact hI.tgt_fr n hn hs
        rcases hI.levels with hfr | ⟨d, lo, hi, hsplit, hlo, hlod, hhid, hcomp⟩
        · cases hfr
        obtain ⟨node0, lo', rfl⟩ : ∃ a l, lo = a :: l := by
          cases lo with
          | nil => exact absurd rfl hlo
          | cons a l => exact ⟨a, l, rfl⟩
        rw [List.cons_append] at hsplit
        injection hsplit with hh1 hh2
        subst hh1
        have hdnode : SNode.depth node = d := hlod node (List.mem_cons_self _ _)
        have hAfter : ∀ em'' : Finset ℕ,
            ((node.action = none ∧ em'' = em) ∨
              (∃ m, node.action = some m ∧ em'' = insert m em ∧
                target ∉ s.movieStars m)) →
            ((∃ k, walkN s k source target) →
              ∃ pth : Path, spAfter s target fuel (insert node.state ep) em''
                  node rest = .ok (some pth) ∧
                walkN s pth.length source target ∧
                ∀ j, j < pth.length → ¬ walkN s j source target) ∧
            (¬ (∃ k, walkN s k source target) →
              spAfter s target fuel (insert node.state ep) em'' node rest
                = .ok none) := by
          intro em'' hem''
          cases hf : (neighborsList s node.state).find?
              (fun mp => decide (mp.2 = target)) with
          | some mp =>
            have hmem := List.mem_of_find?_eq_some hf
            have hpred := List.find?_some hf
            have htgt : mp.2 = target := of_decide_eq_true hpred
            obtain ⟨hm1, hm2⟩ := (mem_neighborsList s node.state mp).mp hmem
            have hwalk : walkN s (d + 1) source target := by
              rw [walkN_snoc]
              exact ⟨SNode.state node,
                hdnode ▸ (hI.fr_valid node (List.mem_cons_self _ _)).walk,
                mp.1, hm1, htgt ▸ hm2⟩
            have hmin : ∀ j, j < d + 1 → ¬ walkN s j source target := by
              intro j hj hw
              rcases Nat.lt_succ_iff_lt_or_eq.mp hj with hj' | hj'
              · exact hI.tgt_ep (hcomp.1 target j hj' hw)
              · subst hj'
                exact hnotV (hcomp.2 target hw)
            have hlen : (((some mp.1, mp.2) :: chain2 node)).reverse.length
                = d + 1 := by
              rw [List.length_reverse]
              simp [chain2_length, hdnode]
            refine ⟨?_, ?_⟩
            · intro _
              exact ⟨_, spAfter_some hf, by rw [hlen]; exact hwalk,
                by rw [hlen]; exact hmin⟩
            · intro hnreach
              exact absurd ⟨d + 1, hwalk⟩ hnreach
          | none =>
            have hfind : ∀ x ∈ neighborsList s node.state, x.2 ≠ target := by
              intro x hx
              have := List.find?_eq_none.mp hf x hx
              simpa using this
            have hI' := Inv_expand hwf hI hem'' hfind
            have hm' := spMeasure_expand s ep em'' node rest hwf
            have ih' := ih _ _ _ hI' (by omega)
            refine ⟨?_, ?_⟩
            · intro hreach
              obtain ⟨pth, hx, hy, hz⟩ := ih'.1 hreach
              exact ⟨pth, by rw [spAfter_none hf]; exact hx, hy, hz⟩
            · intro hreach
              rw [spAfter_none hf]
              exact ih'.2 hreach
        cases ha : node.action with
        | some m =>
          have hb1 : target ∉ s.movieStars m := by
            intro hb
            exact hnotV
              (hI.fr_stars node (List.mem_cons_self _ _) m ha target hb)
          have hA := hAfter (insert m em) (Or.inr ⟨m, ha, rfl, hb1⟩)
          refine ⟨?_, ?_⟩
          · intro hreach
            obtain ⟨pth, hx, hy, hz⟩ := hA.1 hreach
            refine ⟨pth, ?_, hy, hz⟩
            rw [spLoop_cons_some hsk ha, if_neg hb1]
            exact hx
          · intro hreach
            rw [spLoop_cons_some hsk ha, if_neg hb1]
            exact hA.2 hreach
        | none =>
          have hA := hAfter em (Or.inl ⟨ha, rfl⟩)
          refine ⟨?_, ?_⟩
          · intro hreach
            obtain ⟨pth, hx, hy, hz⟩ := hA.1 hreach
            refine ⟨pth, ?_, hy, hz⟩
            rw [spLoop_cons_none hsk ha]
            exact hx
          · intro hreach
            rw [spLoop_cons_none hsk ha]
            exact hA.2 hreach

end Deg

namespace Deg

theorem spMeasure_init (s : Store) (source : ℕ) :
    spMeasure s ∅ [SNode.root source] < 2 + 2 * s.pdom.card := by
  unfold spMeasure
  have h := Finset.card_le_card
    (Finset.sdiff_subset (s := s.pdom) (t := Vset ∅ [SNode.root source]))
  simp only [List.length_cons, List.length_nil]
  omega

/-- Generic component argument: a set of persons closed under the costar
step traps every walk starting inside it. -/
theorem walkN_closed (s : Store) (A : Finset ℕ)
    (hA : ∀ p ∈ A, ∀ m ∈ s.peopleMovies p, ∀ r ∈ s.movieStars m, r ∈ A) :
    ∀ (k p q : ℕ), p ∈ A → walkN s k p q → q ∈ A := by
  intro k
  induction k with
  | zero =>
    intro p q hp hw
    rw [walkN_zero] at hw
    exact hw ▸ hp
  | succ k ihk =>
    intro p q hp hw
    rw [walkN_succ] at hw
    obtain ⟨m, hm, r, hr, hw'⟩ := hw
    exact ihk r q (hA p hp m hm r hr) hw'

end Deg

/-- Claim C1: for connected distinct persons `P`, `Q`, both present, with
`P` having at least one movie, `shortest_path(P, Q)` succeeds and the
returned sequence realizes a walk of its own length while no strictly
shorter walk exists — i.e. its length is the graph distance in the
person-costar graph; in particular the early-exit check never produces a
path longer than strict BFS level order would. -/
theorem claim_C1 (s : Store) (source target : ℕ) (hwf : WF s)
    (hsrc : source ∈ s.pdom) (_htgt : target ∈ s.pdom) (hst : source ≠ target)
    (hmv : s.peopleMovies source ≠ ∅) (hreach : ∃ k, walkN s k source target) :
    ∃ pth : Path, shortestPath s source target = .ok (some pth) ∧
      walkN s pth.length source target ∧
      ∀ j, j < pth.length → ¬ walkN s j source target := by
  unfold shortestPath
  rw [if_neg hst, if_neg hmv]
  exact (spLoop_main s source target hwf (2 + 2 * s.pdom.card) ∅ ∅
    [SNode.root source] (Inv_init s source target hst hsrc)
    (spMeasure_init s source)).1 hreach

/-- Witness for C1: persons 0 and 1 of the example store are connected
through movie 5; the hypotheses hold and the search returns a shortest
path. -/
theorem claim_C1_witness :
    ∃ pth : Path, shortestPath exS 0 1 = .ok (some pth) ∧
      walkN exS pth.length 0 1 ∧ ∀ j, j < pth.length → ¬ walkN exS j 0 1 :=
  claim_C1 exS 0 1 wf_exS (by decide) (by decide) (by decide) (by decide)
    ⟨1, by decide⟩

/-- Claim C4: a source distinct from the target with an empty movie set
raises the explicit no-movies error rather than returning not-found, while
two present persons in disjoint components (the source with at least one
movie, per the input contract) yield the not-found value and never an
error. -/
theorem claim_C4 (s : Store) (source target : ℕ) :
    (source ≠ target → s.peopleMovies source = ∅ →
      shortestPath s source target = .error "source has no movies") ∧
    (WF s → source ∈ s.pdom → s.peopleMovies source ≠ ∅ →
      (¬ ∃ k, walkN s k source target) →
      shortestPath s source target = .ok none) := by
  constructor
  · intro hst hmv
    unfold shortestPath
    rw [if_neg hst, if_pos hmv]
  · intro hwf hsrc hmv hnreach
    have hst : source ≠ target := by
      intro h
      exact hnreach ⟨0, (walkN_zero s source target).mpr h⟩
    unfold shortestPath
    rw [if_neg hst, if_neg hmv]
    exact (spLoop_main s source target hwf (2 + 2 * s.pdom.card) ∅ ∅
      [SNode.root source] (Inv_init s source target hst hsrc)
      (spMeasure_init s source)).2 hnreach

/-- Witness for C4 at concrete inputs: in the disconnected example store the
isolated person 1 as source raises the error, and the search from person 0
(who stars alone in movie 10) to person 1 returns not-found. -/
theorem claim_C4_witness :
    shortestPath exD 1 0 = .error "source has no movies" ∧
    shortestPath exD 0 1 = .ok none := by
  constructor
  · exact (claim_C4 exD 1 0).1 (by decide) (by decide)
  · refine (claim_C4 exD 0 1).2 wf_exD (by decide) (by decide) ?_
    rintro ⟨k, hw⟩
    have h1 : (1 : ℕ) ∈ ({0} : Finset ℕ) :=
      walkN_closed exD {0} (by decide) k 0 1 (by decide) hw
    exact absurd h1 (by decide)

/-- Claim C5: on every finite well-formed store, the search terminates — for
a present source that either equals the target or has at least one movie,
`shortest_path` returns a value (a path or not-found) rather than running
out of fuel: each person and movie is expanded at most once, which the loop
measure makes precise. -/
theorem claim_C5 (s : Store) (source target : ℕ) (hwf : WF s)
    (hsrc : source ∈ s.pdom)
    (h : source = target ∨ s.peopleMovies source ≠ ∅) :
    ∃ r, shortestPath s source target = .ok r := by
  by_cases hst : source = target
  · exact ⟨some [], claim_C9 s source ▸ (hst ▸ rfl)⟩
  · rcases h with h | hmv
    · exact absurd h hst
    · unfold shortestPath
      rw [if_neg hst, if_neg hmv]
      have hmain := spLoop_main s source target hwf (2 + 2 * s.pdom.card) ∅ ∅
        [SNode.root source] (Inv_init s source target hst hsrc)
        (spMeasure_init s source)
      by_cases hreach : ∃ k, walkN s k source target
      · obtain ⟨pth, ha, -, -⟩ := hmain.1 hreach
        exact ⟨some pth, ha⟩
      · exact ⟨none, hmain.2 hreach⟩

/-- Witness for C5: the search between the two connected persons of the
example store terminates with a value. -/
theorem claim_C5_witness : ∃ r, shortestPath exS 0 1 = .ok r :=
  claim_C5 exS 0 1 wf_exS (by decide) (Or.inr (by decide))
